import Mathlib

/-!
# simple-database: nested transactions over a pluggable store

A shallow embedding of `src/internal/store/store.go`, `src/internal/store/memory.go`
and `src/db/db.go`.

* A Go interface value of type `store.Store` is `Option σ`: `none` is the nil
  interface, `some s` a receiver `s`; the method set is the record `Store σ ω`,
  whose methods thread the world `ω` (everything a backend may read or write).
* A Go `map[string]int` is a reference: `memoryStore` is an address into a `Heap`
  of association lists with distinct keys.
* The `*db` chain (`transaction *db`) is an owned singly linked list; each public
  method is a function returning the updated chain and world. A result of `none`
  is a run-time panic (a method call on a nil `store.Store`).
* `sync.Mutex` is not modelled: every definition describes one call running alone.
-/

namespace SimpleDatabase

/-! ## package store -/

/-- Modelled from the spec: the error values. `ErrNoActiveTransaction` is declared in a
file of package `db` that is not under `src/`; the spec (section 7) names it as the only
explicit error kind of the public contract. Every other error value is a backend-layer
error, identified here by its message. -/
inductive Error where
  | ErrNoActiveTransaction : Error
  | backend (msg : String) : Error
  deriving DecidableEq

/-- Modelled from the spec: the dynamic value carried by a `Result`. The type `Result` is
declared in a file of package `store` that is not under `src/`; `memory.go` fills its
field `value` with an `int` and `db.go` applies the type assertion `.(int)` to
`GetValue()`, so the value is an `interface{}` which is an `int` or something else
(spec 4.2: "found=false on absence or on a type mismatch in the stored value"). -/
inductive Value where
  | int (n : Int) : Value
  | other (description : String) : Value
  deriving DecidableEq

/-- Modelled from the spec: `store.Result`, declared outside `src/`; built in `memory.go`
as `&Result{value: value}`. -/
structure Result where
  value : Value
  deriving DecidableEq

/-- Modelled from the spec: `(*Result).GetValue`, declared outside `src/`; returns the
stored value. -/
def Result.GetValue (r : Result) : Value := r.value

/-- The comma-ok type assertion `x.(int)`: the integer and `true`, or the zero value and
`false` when the dynamic type is not `int`. -/
def Value.assertInt : Value → Int × Bool
  | .int n => (n, true)
  | .other _ => (0, false)

/-- The interface `store.Store` (`store.go`): the five methods of a backend with receiver
type `σ`, each threading the world `ω`. A `*Result` and a returned `Store` may be nil. -/
structure Store (σ ω : Type) where
  Save : σ → String → Int → ω → Option Error × ω
  Delete : σ → String → ω → Option Error × ω
  Find : σ → String → ω → (Option Result × Option Error) × ω
  Flush : σ → ω → Option Error × ω
  Clone : σ → ω → (Option σ × Option Error) × ω

/-- The contents of a Go `map[string]int`: at most one value per key. -/
abbrev GoMap := AList (fun _ : String => Int)

/-- The heap of Go maps: `cells a` is the map at address `a`, `next` the first address
that has not been allocated. -/
structure Heap where
  cells : Nat → GoMap
  next : Nat

/-- The map stored at an address. -/
def Heap.read (h : Heap) (a : Nat) : GoMap := h.cells a

/-- Replace the map stored at an address. -/
def Heap.write (h : Heap) (a : Nat) (m : GoMap) : Heap :=
  { h with cells := Function.update h.cells a m }

/-- The composite literal `memoryStore{}`: a fresh empty map at the next free address. -/
def Heap.alloc (h : Heap) : Nat × Heap :=
  (h.next, { cells := Function.update h.cells h.next ∅, next := h.next + 1 })

/-- A heap in which nothing has been allocated. -/
def Heap.empty : Heap := { cells := fun _ => ∅, next := 0 }

/-- The type `memoryStore map[string]int` (`memory.go`): a reference to a map. -/
structure memoryStore where
  ref : Nat
  deriving DecidableEq

/-- The constructor `NewMemoryStore` (`memory.go`): `return memoryStore{}`. -/
def NewMemoryStore (h : Heap) : memoryStore × Heap :=
  let r := h.alloc
  (⟨r.1⟩, r.2)

/-- The method `memoryStore.Save`: `s[key] = value; return nil`. -/
def memoryStore.Save (s : memoryStore) (key : String) (value : Int) (h : Heap) :
    Option Error × Heap :=
  (none, h.write s.ref ((h.read s.ref).insert key value))

/-- The method `memoryStore.Delete`: `delete(s, key); return nil`. -/
def memoryStore.Delete (s : memoryStore) (key : String) (h : Heap) : Option Error × Heap :=
  (none, h.write s.ref ((h.read s.ref).erase key))

/-- The method `memoryStore.Find`: `value, found := s[key]`; a nil result when the key is
absent, otherwise `&Result{value: value}`; the error is always nil. -/
def memoryStore.Find (s : memoryStore) (key : String) (h : Heap) :
    (Option Result × Option Error) × Heap :=
  match (h.read s.ref).lookup key with
  | none => ((none, none), h)
  | some value => ((some { value := Value.int value }, none), h)

/-- The method `memoryStore.Clone`: `cpy := memoryStore{}`, then `cpy[key] = value` for
every entry of `s` (in the order the entries are listed), and `return cpy, nil`. -/
def memoryStore.Clone (s : memoryStore) (h : Heap) : (Option memoryStore × Option Error) × Heap :=
  let r := h.alloc
  let cpy := r.1
  let h2 := (r.2.read s.ref).entries.foldl
    (fun acc e => acc.write cpy ((acc.read cpy).insert e.1 e.2)) r.2
  ((some ⟨cpy⟩, none), h2)

/-- The method `memoryStore.Flush`: `return nil`. -/
def memoryStore.Flush (_s : memoryStore) (h : Heap) : Option Error × Heap := (none, h)

/-- The type `memoryStore` as an implementation of the interface `Store`. -/
def memoryStore.impl : Store memoryStore Heap where
  Save := memoryStore.Save
  Delete := memoryStore.Delete
  Find := memoryStore.Find
  Flush := memoryStore.Flush
  Clone := memoryStore.Clone

/-- One invocation of a `Store` method, with its receiver and arguments. -/
inductive Call (σ : Type) where
  | Save (s : σ) (key : String) (value : Int) : Call σ
  | Delete (s : σ) (key : String) : Call σ
  | Find (s : σ) (key : String) : Call σ
  | Flush (s : σ) : Call σ
  | Clone (s : σ) : Call σ
  deriving DecidableEq

/-- An observer around a backend: the same methods, each also appending its invocation
to a log kept next to the world. It changes no result and no state of the backend. -/
def Store.traced {σ ω : Type} (S : Store σ ω) : Store σ (ω × List (Call σ)) where
  Save := fun s key value w =>
    let r := S.Save s key value w.1
    (r.1, (r.2, w.2 ++ [Call.Save s key value]))
  Delete := fun s key w =>
    let r := S.Delete s key w.1
    (r.1, (r.2, w.2 ++ [Call.Delete s key]))
  Find := fun s key w =>
    let r := S.Find s key w.1
    (r.1, (r.2, w.2 ++ [Call.Find s key]))
  Flush := fun s w =>
    let r := S.Flush s w.1
    (r.1, (r.2, w.2 ++ [Call.Flush s]))
  Clone := fun s w =>
    let r := S.Clone s w.1
    (r.1, (r.2, w.2 ++ [Call.Clone s]))

/-! ## package db -/

/-- The struct `db` (`db.go`): the owned `store` and the nested `transaction *db`.
`leaf store` is a node whose `transaction` is nil, `node store t` one whose
`transaction` points to `t`. -/
inductive db (σ : Type) where
  | leaf (store : Option σ) : db σ
  | node (store : Option σ) (transaction : db σ) : db σ
  deriving DecidableEq

/-- The field `d.store`. -/
def db.store {σ : Type} : db σ → Option σ
  | .leaf store => store
  | .node store _ => store

/-- The field `d.transaction`: `none` is the nil pointer. -/
def db.transaction {σ : Type} : db σ → Option (db σ)
  | .leaf _ => none
  | .node _ t => some t

/-- Modelled from the spec: the method `(*db).GetStore`, called by `Commit` and declared
in a file that is not under `src/`. The spec (4.2, Commit) says Commit "takes that
Frame's Backend as the new authoritative Backend of the root object": the method
returns the frame's own `store`. -/
def db.GetStore {σ : Type} (d : db σ) : Option σ := d.store

/-- The constructor `NewDatabaseWithStore`: `&db{store: store}`. -/
def NewDatabaseWithStore {σ : Type} (store : Option σ) : db σ := db.leaf store

/-- The constructor `NewDatabaseWithMemoryStore`. -/
def NewDatabaseWithMemoryStore (h : Heap) : db memoryStore × Heap :=
  let r := NewMemoryStore h
  (NewDatabaseWithStore (some r.1), r.2)

/-- The package variable `defaultDatabase = NewDatabaseWithMemoryStore`. -/
def defaultDatabase : Heap → db memoryStore × Heap := NewDatabaseWithMemoryStore

/-- The constructor `NewDatabase`: `return defaultDatabase()`. -/
def NewDatabase (h : Heap) : db memoryStore × Heap := defaultDatabase h

/-- The method `(*db).Set`: delegate to the nested transaction when there is one,
otherwise `_ = d.store.Save(key, value)`. -/
def db.Set {σ ω : Type} (S : Store σ ω) : db σ → String → Int → ω → Option (db σ × ω)
  | .node store t, key, value, w =>
    match db.Set S t key value w with
    | none => none
    | some r => some (.node store r.1, r.2)
  | .leaf store, key, value, w =>
    match store with
    | none => none
    | some s => some (.leaf store, (S.Save s key value w).2)

/-- The method `(*db).Get`: delegate to the nested transaction when there is one;
otherwise `d.store.Find(key)`, and when the error is nil and the result is not nil,
`value, ok = result.GetValue().(int)`; else the zero results. -/
def db.Get {σ ω : Type} (S : Store σ ω) : db σ → String → ω → Option ((Int × Bool) × ω)
  | .node _ t, key, w => db.Get S t key w
  | .leaf store, key, w =>
    match store with
    | none => none
    | some s =>
      let r := S.Find s key w
      match r.1.2, r.1.1 with
      | none, some result => some (result.GetValue.assertInt, r.2)
      | _, _ => some ((0, false), r.2)

/-- The method `(*db).Unset`: delegate to the nested transaction when there is one,
otherwise `_ = d.store.Delete(key)`. -/
def db.Unset {σ ω : Type} (S : Store σ ω) : db σ → String → ω → Option (db σ × ω)
  | .node store t, key, w =>
    match db.Unset S t key w with
    | none => none
    | some r => some (.node store r.1, r.2)
  | .leaf store, key, w =>
    match store with
    | none => none
    | some s => some (.leaf store, (S.Delete s key w).2)

/-- The method `(*db).Begin`: delegate to the nested transaction when there is one,
otherwise `clonedStore, _ := d.store.Clone()` and
`d.transaction = NewDatabaseWithStore(clonedStore).(*db)`. -/
def db.Begin {σ ω : Type} (S : Store σ ω) : db σ → ω → Option (db σ × ω)
  | .node store t, w =>
    match db.Begin S t w with
    | none => none
    | some r => some (.node store r.1, r.2)
  | .leaf store, w =>
    match store with
    | none => none
    | some s =>
      let r := S.Clone s w
      some (.node store (NewDatabaseWithStore r.1.1), r.2)

/-- The loop of `Commit`: `for transaction.transaction != nil { transaction =
transaction.transaction }`, from a given `transaction`. -/
def db.Commit.loop {σ : Type} : db σ → db σ
  | .leaf store => .leaf store
  | .node _ t => db.Commit.loop t

/-- The method `(*db).Commit`: `ErrNoActiveTransaction` when `d.transaction == nil`;
otherwise walk to the deepest transaction, `d.store = transaction.GetStore()`,
`d.transaction = nil`, `return d.store.Flush()`. -/
def db.Commit {σ ω : Type} (S : Store σ ω) : db σ → ω → Option (Option Error × db σ × ω)
  | .leaf store, w => some (some Error.ErrNoActiveTransaction, .leaf store, w)
  | .node _ t, w =>
    let transaction := db.Commit.loop t
    let store := transaction.GetStore
    match store with
    | none => none
    | some s =>
      let r := S.Flush s w
      some (r.1, .leaf store, r.2)

/-- The loop of `Rollback` together with the assignment after it: starting from
`parent` (whose `store` is given) and `transaction`, advance while
`transaction.transaction != nil`, then `parent.transaction = nil`. The result is the
updated `parent`. -/
def db.Rollback.loop {σ : Type} (parentStore : Option σ) : db σ → db σ
  | .leaf _ => .leaf parentStore
  | .node store t => .node parentStore (db.Rollback.loop store t)

/-- The method `(*db).Rollback`: `ErrNoActiveTransaction` when `d.transaction == nil`;
otherwise cut the deepest transaction off its parent and return nil. No store method
is called. -/
def db.Rollback {σ : Type} : db σ → Option Error × db σ
  | .leaf store => (some Error.ErrNoActiveTransaction, .leaf store)
  | .node store t => (none, db.Rollback.loop store t)

/-! ## Calls, runs and derived notions -/

/-- A call of one of the six public methods of `Database`. -/
inductive Op where
  | Set (key : String) (value : Int) : Op
  | Get (key : String) : Op
  | Unset (key : String) : Op
  | Begin : Op
  | Commit : Op
  | Rollback : Op
  deriving DecidableEq

/-- What a call hands back to its caller. -/
inductive Ret where
  | unit : Ret
  | value (value : Int) (ok : Bool) : Ret
  | error (err : Option Error) : Ret
  deriving DecidableEq

/-- Execute one call on a database and a world. -/
def db.exec {σ ω : Type} (S : Store σ ω) (d : db σ) (w : ω) : Op → Option (Ret × db σ × ω)
  | .Set key value => (db.Set S d key value w).map (fun r => (Ret.unit, r.1, r.2))
  | .Get key => (db.Get S d key w).map (fun r => (Ret.value r.1.1 r.1.2, d, r.2))
  | .Unset key => (db.Unset S d key w).map (fun r => (Ret.unit, r.1, r.2))
  | .Begin => (db.Begin S d w).map (fun r => (Ret.unit, r.1, r.2))
  | .Commit => (db.Commit S d w).map (fun r => (Ret.error r.1, r.2.1, r.2.2))
  | .Rollback => some (Ret.error (db.Rollback d).1, (db.Rollback d).2, w)

/-- Execute a sequence of calls in order, collecting what each returns. -/
def db.run {σ ω : Type} (S : Store σ ω) (d : db σ) (w : ω) : List Op → Option (List Ret × db σ × ω)
  | [] => some ([], d, w)
  | op :: ops =>
    match db.exec S d w op with
    | none => none
    | some r =>
      match db.run S r.2.1 r.2.2 ops with
      | none => none
      | some rs => some (r.1 :: rs.1, rs.2.1, rs.2.2)

/-- The calls that write a key: `Set` and `Unset`. -/
def Op.isWrite : Op → Bool
  | .Set _ _ => true
  | .Unset _ => true
  | _ => false

/-- The stores of the chain, root first, deepest frame last. -/
def db.stores {σ : Type} : db σ → List (Option σ)
  | .leaf store => [store]
  | .node store t => store :: db.stores t

/-- The number of open transactions: the frames below the root. -/
def db.depth {σ : Type} : db σ → Nat
  | .leaf _ => 0
  | .node _ t => db.depth t + 1

/-- The store of the deepest open frame, the root's store when no frame is open. -/
def db.innermost {σ : Type} : db σ → Option σ
  | .leaf store => store
  | .node _ t => db.innermost t

/-- The stores of the root and of every frame except the deepest one (empty when no
transaction is open). -/
def db.outer {σ : Type} : db σ → List (Option σ)
  | .leaf _ => []
  | .node store t => store :: db.outer t

/-- The chain with one more frame, owning the given store, below the deepest one. -/
def db.push {σ : Type} : db σ → Option σ → db σ
  | .leaf store, c => .node store (.leaf c)
  | .node store t, c => .node store (db.push t c)

/-- A well-formed database over the in-memory store: every node of the chain owns a
non-nil store, the stores are allocated in the heap, and no two nodes share one. -/
def WF (d : db memoryStore) (h : Heap) : Prop :=
  ∃ l : List memoryStore, d.stores = l.map some ∧ l.Nodup ∧ ∀ s ∈ l, s.ref < h.next

/-- The states reachable from `NewDatabase()` by the six public methods. -/
inductive Reachable : db memoryStore × Heap → Prop
  | init (h0 : Heap) : Reachable (NewDatabase h0)
  | step {d : db memoryStore} {h : Heap} (op : Op) {r : Ret × db memoryStore × Heap} :
      Reachable (d, h) → db.exec memoryStore.impl d h op = some r → Reachable (r.2.1, r.2.2)

/-- A fresh database in an empty heap: `NewDatabase()`. -/
def fresh : db memoryStore × Heap := NewDatabase Heap.empty

/-- The database `fresh` after one `Begin()`: the root owns the map at address 0, the open
transaction the clone at address 1. -/
def nested : db memoryStore × Heap :=
  (db.node (some ⟨0⟩) (db.leaf (some ⟨1⟩)), (memoryStore.Clone ⟨0⟩ fresh.2).2)

/-- A backend that behaves like the in-memory store except that `Flush` fails. -/
def failingFlush : Store memoryStore Heap :=
  { memoryStore.impl with Flush := fun _ h => (some (Error.backend "flush failed"), h) }

/-- A backend that behaves like the in-memory store except that `Clone` fails, returning a
nil `Store` and an error. -/
def failingClone : Store memoryStore Heap :=
  { memoryStore.impl with Clone := fun _ h => ((none, some (Error.backend "clone failed")), h) }

/-! ## The frame-stack model of the spec -/

/-- The frame-stack model in the spec's words (sections 2 and 9): a base map and the ordered
sequence of the open frames' maps, outermost first, innermost last. -/
structure FrameStack where
  base : String → Option Int
  frames : List (String → Option Int)

/-- The model of `NewDatabase()`: an empty base and no frame. -/
def FrameStack.init : FrameStack := { base := fun _ => none, frames := [] }

/-- The top map of the model: the innermost frame, the base when the stack is empty. -/
def FrameStack.top (m : FrameStack) : String → Option Int := m.frames.getLast?.getD m.base

/-- Replace the top map of the model: the innermost frame, the base when the stack is
empty. -/
def FrameStack.setTop (m : FrameStack) (f : String → Option Int) : FrameStack :=
  match m.frames with
  | [] => { m with base := f }
  | _ :: _ => { m with frames := m.frames.dropLast ++ [f] }

/-- One call on the model: `Begin` pushes a copy of the top map, `Set`, `Unset` and `Get` act
on the top map, `Rollback` pops the top or fails with `ErrNoActiveTransaction` on an empty
stack, `Commit` replaces the base by the top map and empties the stack or fails on an empty
stack. -/
def FrameStack.exec (m : FrameStack) : Op → Ret × FrameStack
  | .Set key value => (Ret.unit, m.setTop (Function.update m.top key (some value)))
  | .Get key =>
    (match m.top key with
      | some value => Ret.value value true
      | none => Ret.value 0 false, m)
  | .Unset key => (Ret.unit, m.setTop (Function.update m.top key none))
  | .Begin => (Ret.unit, { m with frames := m.frames ++ [m.top] })
  | .Commit =>
    match m.frames with
    | [] => (Ret.error (some Error.ErrNoActiveTransaction), m)
    | _ :: _ => (Ret.error none, { base := m.top, frames := [] })
  | .Rollback =>
    match m.frames with
    | [] => (Ret.error (some Error.ErrNoActiveTransaction), m)
    | _ :: _ => (Ret.error none, { m with frames := m.frames.dropLast })

/-- A sequence of calls on the model, collecting what each returns. -/
def FrameStack.run (m : FrameStack) : List Op → List Ret × FrameStack
  | [] => ([], m)
  | op :: ops =>
    let r := m.exec op
    let rs := FrameStack.run r.2 ops
    (r.1 :: rs.1, rs.2)

/-- The map a store holds in a heap, as a function from keys to values; the nil store holds
nothing. -/
def Heap.contents (h : Heap) : Option memoryStore → String → Option Int
  | some s => fun k => (h.read s.ref).lookup k
  | none => fun _ => none

/-- The frame stack a database over the in-memory store represents: the root's map as the
base, the maps of the open frames in order. -/
def db.abs (h : Heap) : db memoryStore → FrameStack
  | .leaf store => { base := h.contents store, frames := [] }
  | .node store t => { base := h.contents store, frames := t.stores.map h.contents }

/-! ## The heap and the in-memory store -/

@[simp] theorem Heap.read_write_same (h : Heap) (a : Nat) (m : GoMap) : (h.write a m).read a = m := by
  simp [Heap.read, Heap.write]

@[simp] theorem Heap.read_write_ne (h : Heap) {a b : Nat} (hab : b ≠ a) (m : GoMap) :
    (h.write a m).read b = h.read b := by
  simp [Heap.read, Heap.write, Function.update_noteq hab]

@[simp] theorem Heap.next_write (h : Heap) (a : Nat) (m : GoMap) : (h.write a m).next = h.next := rfl

theorem Heap.write_write (h : Heap) (a : Nat) (m m' : GoMap) :
    (h.write a m).write a m' = h.write a m' := by
  simp [Heap.write]

theorem Heap.write_read_self (h : Heap) (a : Nat) : h.write a (h.read a) = h := by
  simp [Heap.write, Heap.read]

theorem Clone_fold (cpy : Nat) (l : List (Σ _ : String, Int)) (g : Heap) :
    l.foldl (fun acc e => acc.write cpy ((acc.read cpy).insert e.1 e.2)) g
      = g.write cpy (l.foldl (fun m e => m.insert e.1 e.2) (g.read cpy)) := by
  induction l generalizing g with
  | nil => simp [Heap.write_read_self]
  | cons e l ih => simp [ih, Heap.write_write]

theorem lookup_foldl_insert (l : List (Σ _ : String, Int)) (hl : l.NodupKeys) (m0 : GoMap) (k : String) :
    (l.foldl (fun m e => m.insert e.1 e.2) m0).lookup k = (List.dlookup k l <|> m0.lookup k) := by
  induction l generalizing m0 with
  | nil => simp
  | cons e l ih =>
    obtain ⟨a, b⟩ := e
    rw [List.nodupKeys_cons] at hl
    simp only [List.foldl_cons, ih hl.2]
    by_cases hk : k = a
    · subst hk
      have : List.dlookup k l = none := List.dlookup_eq_none.2 hl.1
      simp [this]
    · rw [List.dlookup_cons_ne l ⟨a, b⟩ hk]
      simp [AList.lookup_insert_ne hk]

theorem Clone_fst (s : memoryStore) (h : Heap) : (memoryStore.Clone s h).1 = (some ⟨h.next⟩, none) := rfl

theorem Clone_next (s : memoryStore) (h : Heap) : (memoryStore.Clone s h).2.next = h.next + 1 := by
  simp [memoryStore.Clone, Clone_fold, Heap.alloc]

theorem Clone_read_ne (s : memoryStore) (h : Heap) {a : Nat} (ha : a ≠ h.next) :
    (memoryStore.Clone s h).2.read a = h.read a := by
  simp [memoryStore.Clone, Clone_fold, Heap.alloc, Heap.read_write_ne _ ha]
  simp [Heap.read, Function.update_noteq ha]

theorem Clone_lookup (s : memoryStore) (h : Heap) (hs : s.ref ≠ h.next) (k : String) :
    ((memoryStore.Clone s h).2.read h.next).lookup k = (h.read s.ref).lookup k := by
  simp only [memoryStore.Clone, Clone_fold, Heap.alloc, Heap.read_write_same]
  rw [lookup_foldl_insert _ (AList.nodupKeys _)]
  simp [Heap.read, Function.update_noteq hs, AList.lookup]

/-! ## The chain -/

section Chain

variable {σ ω : Type}

theorem db.Set_eq (S : Store σ ω) (d : db σ) (key : String) (value : Int) (w : ω) :
    db.Set S d key value w = d.innermost.map (fun s => (d, (S.Save s key value w).2)) := by
  induction d with
  | leaf store => cases store <;> rfl
  | node store t ih => simp only [db.Set, ih, db.innermost]; cases t.innermost <;> rfl

theorem db.Unset_eq (S : Store σ ω) (d : db σ) (key : String) (w : ω) :
    db.Unset S d key w = d.innermost.map (fun s => (d, (S.Delete s key w).2)) := by
  induction d with
  | leaf store => cases store <;> rfl
  | node store t ih => simp only [db.Unset, ih, db.innermost]; cases t.innermost <;> rfl

theorem db.Get_eq (S : Store σ ω) (d : db σ) (key : String) (w : ω) :
    db.Get S d key w = db.Get S (db.leaf d.innermost) key w := by
  induction d with
  | leaf store => rfl
  | node store t ih => simp only [db.Get, ih, db.innermost]

theorem db.Begin_eq (S : Store σ ω) (d : db σ) (w : ω) :
    db.Begin S d w = d.innermost.map (fun s => (d.push (S.Clone s w).1.1, (S.Clone s w).2)) := by
  induction d with
  | leaf store => cases store <;> rfl
  | node store t ih => simp only [db.Begin, ih, db.innermost]; cases t.innermost <;> rfl

theorem db.Commit_loop_GetStore (d : db σ) : (db.Commit.loop d).GetStore = d.innermost := by
  induction d with
  | leaf store => rfl
  | node store t ih => simpa [db.Commit.loop, db.innermost] using ih

theorem db.Commit_eq (S : Store σ ω) (d : db σ) (w : ω) (hd : 1 ≤ d.depth) :
    db.Commit S d w
      = d.innermost.map (fun s => ((S.Flush s w).1, db.leaf (some s), (S.Flush s w).2)) := by
  cases d with
  | leaf store => simp [db.depth] at hd
  | node store t =>
    simp only [db.Commit, db.Commit_loop_GetStore, db.innermost]
    cases t.innermost <;> rfl

theorem db.stores_push (d : db σ) (c : Option σ) : (d.push c).stores = d.stores ++ [c] := by
  induction d with
  | leaf store => rfl
  | node store t ih => simp [db.push, db.stores, ih]

theorem db.depth_push (d : db σ) (c : Option σ) : (d.push c).depth = d.depth + 1 := by
  induction d with
  | leaf store => rfl
  | node store t ih => simp [db.push, db.depth, ih]

theorem db.innermost_push (d : db σ) (c : Option σ) : (d.push c).innermost = c := by
  induction d with
  | leaf store => rfl
  | node store t ih => simp [db.push, db.innermost, ih]

theorem db.outer_push (d : db σ) (c : Option σ) : (d.push c).outer = d.stores := by
  induction d with
  | leaf store => rfl
  | node store t ih => simp [db.push, db.outer, db.stores, ih]

theorem db.stores_eq (d : db σ) : d.stores = d.outer ++ [d.innermost] := by
  induction d with
  | leaf store => rfl
  | node store t ih => simp [db.outer, db.stores, db.innermost, ih]

theorem db.length_stores (d : db σ) : d.stores.length = d.depth + 1 := by
  induction d with
  | leaf store => rfl
  | node store t ih => simp [db.stores, db.depth, ih]

theorem db.length_outer (d : db σ) : d.outer.length = d.depth := by
  induction d with
  | leaf store => rfl
  | node store t ih => simp [db.outer, db.depth, ih]

theorem db.Rollback_loop_push (store : Option σ) (t : db σ) :
    (db.Rollback.loop store t).push t.innermost = db.node store t := by
  induction t generalizing store with
  | leaf s => rfl
  | node s t ih => simp [db.Rollback.loop, db.push, db.innermost, ih]

theorem db.Rollback_loop_stores (store : Option σ) (t : db σ) :
    (db.Rollback.loop store t).stores = store :: t.outer := by
  induction t generalizing store with
  | leaf s => rfl
  | node s t ih => simp [db.Rollback.loop, db.stores, db.outer, ih]

theorem db.Rollback_stores (d : db σ) (hd : 1 ≤ d.depth) : (db.Rollback d).2.stores = d.outer := by
  cases d with
  | leaf store => simp [db.depth] at hd
  | node store t => simp [db.Rollback, db.Rollback_loop_stores, db.outer]

theorem db.Rollback_loop_of_push (store : Option σ) (t : db σ) (c : Option σ) :
    db.Rollback.loop store (t.push c) = db.node store t := by
  induction t generalizing store with
  | leaf s => rfl
  | node s t ih => simp [db.push, db.Rollback.loop, ih]

theorem db.Rollback_push (d : db σ) (c : Option σ) : db.Rollback (d.push c) = (none, d) := by
  cases d with
  | leaf store => rfl
  | node store t => simp [db.push, db.Rollback, db.Rollback_loop_of_push]

theorem db.outer_eq_dropLast (d : db σ) : d.outer = d.stores.dropLast := by
  rw [db.stores_eq]; simp

end Chain

theorem Get_memory (d : db memoryStore) (k : String) (h : Heap) :
    db.Get memoryStore.impl d k h
      = d.innermost.map (fun s =>
          (match (h.read s.ref).lookup k with
            | some v => (v, true)
            | none => (0, false), h)) := by
  rw [db.Get_eq]
  cases d.innermost with
  | none => rfl
  | some s =>
    simp only [db.Get, memoryStore.impl, memoryStore.Find, Option.map_some']
    cases (h.read s.ref).lookup k <;> rfl

/-! ## Well-formed and reachable states -/

theorem WF.innermost {d : db memoryStore} {h : Heap} (hwf : WF d h) :
    ∃ s : memoryStore, d.innermost = some s ∧ s.ref < h.next ∧ some s ∉ d.outer := by
  obtain ⟨l, hl, hnd, hlt⟩ := hwf
  have hmem : d.innermost ∈ d.stores := by rw [db.stores_eq]; simp
  rw [hl] at hmem
  obtain ⟨s, hs, hse⟩ := List.mem_map.1 hmem
  refine ⟨s, hse.symm, hlt s hs, ?_⟩
  have hnd2 : d.stores.Nodup := by
    rw [hl]; exact hnd.map (Option.some_injective _)
  rw [db.stores_eq, ← hse] at hnd2
  intro hin
  have := List.disjoint_of_nodup_append hnd2 hin
  simp at this

theorem WF.mem_lt {d : db memoryStore} {h : Heap} (hwf : WF d h) {s : memoryStore}
    (hs : some s ∈ d.stores) : s.ref < h.next := by
  obtain ⟨l, hl, _, hlt⟩ := hwf
  rw [hl] at hs
  obtain ⟨s', hs', hse⟩ := List.mem_map.1 hs
  cases hse
  exact hlt s hs'

theorem WF.mono {d : db memoryStore} {h h' : Heap} (hwf : WF d h) (hn : h.next ≤ h'.next) :
    WF d h' := by
  obtain ⟨l, hl, hnd, hlt⟩ := hwf
  exact ⟨l, hl, hnd, fun s hs => lt_of_lt_of_le (hlt s hs) hn⟩

theorem WF.push {d : db memoryStore} {h h' : Heap} (hwf : WF d h) (hn : h'.next = h.next + 1) :
    WF (d.push (some ⟨h.next⟩)) h' := by
  obtain ⟨l, hl, hnd, hlt⟩ := hwf
  refine ⟨l ++ [⟨h.next⟩], by simp [db.stores_push, hl], ?_, ?_⟩
  · rw [List.nodup_append]
    refine ⟨hnd, List.nodup_singleton _, ?_⟩
    intro a ha hb
    simp only [List.mem_singleton] at hb
    subst hb
    exact absurd (hlt _ ha) (lt_irrefl _)
  · intro s hs
    rw [hn]
    rcases List.mem_append.1 hs with hs | hs
    · exact Nat.lt_succ_of_lt (hlt s hs)
    · simp only [List.mem_singleton] at hs
      subst hs
      exact Nat.lt_succ_self _

theorem WF.leaf {s : memoryStore} {h : Heap} (hs : s.ref < h.next) : WF (db.leaf (some s)) h :=
  ⟨[s], rfl, List.nodup_singleton _, fun s' hs' => by
    simp only [List.mem_singleton] at hs'
    subst hs'
    exact hs⟩

theorem WF.of_stores_sublist {d d' : db memoryStore} {h : Heap} (hwf : WF d h)
    (hsub : d'.stores.Sublist d.stores) : WF d' h := by
  obtain ⟨l, hl, hnd, hlt⟩ := hwf
  rw [hl] at hsub
  obtain ⟨l', hl', hmap⟩ := List.sublist_map_iff.1 hsub
  exact ⟨l', hmap, hnd.sublist hl', fun s hs => hlt s (hl'.subset hs)⟩

theorem WF.rollback {d : db memoryStore} {h : Heap} (hwf : WF d h) : WF (db.Rollback d).2 h := by
  cases d with
  | leaf store => exact hwf
  | node store t =>
    apply hwf.of_stores_sublist
    rw [db.Rollback_stores _ (by simp [db.depth]), db.outer_eq_dropLast]
    exact List.dropLast_sublist _

theorem WF.exec {d : db memoryStore} {h : Heap} (hwf : WF d h) (op : Op)
    {r : Ret × db memoryStore × Heap} (hr : db.exec memoryStore.impl d h op = some r) :
    WF r.2.1 r.2.2 := by
  obtain ⟨s, hs, hlt, -⟩ := hwf.innermost
  cases op with
  | Set key value =>
    simp only [db.exec, db.Set_eq, hs, Option.map_some', Option.some.injEq] at hr
    subst hr
    exact hwf.mono (le_of_eq rfl)
  | Get key =>
    simp only [db.exec, Get_memory, hs, Option.map_some', Option.some.injEq] at hr
    subst hr
    exact hwf
  | Unset key =>
    simp only [db.exec, db.Unset_eq, hs, Option.map_some', Option.some.injEq] at hr
    subst hr
    exact hwf.mono (le_of_eq rfl)
  | Begin =>
    simp only [db.exec, db.Begin_eq, hs, Option.map_some', Option.some.injEq] at hr
    subst hr
    exact hwf.push (Clone_next s h)
  | Commit =>
    cases d with
    | leaf store =>
      simp only [db.exec, db.Commit, Option.map_some', Option.some.injEq] at hr
      subst hr
      exact hwf
    | node store t =>
      simp only [db.exec, db.Commit_eq _ _ _ (show 1 ≤ (db.node store t).depth by simp [db.depth]),
        hs, Option.map_some', Option.some.injEq] at hr
      subst hr
      exact WF.leaf hlt
  | Rollback =>
    simp only [db.exec, Option.some.injEq] at hr
    subst hr
    exact hwf.rollback

theorem WF.NewDatabase (h0 : Heap) : WF (NewDatabase h0).1 (NewDatabase h0).2 :=
  WF.leaf (Nat.lt_succ_self _)

theorem Reachable.wf {s : db memoryStore × Heap} (hs : Reachable s) : WF s.1 s.2 := by
  induction hs with
  | init h0 => exact WF.NewDatabase h0
  | step op _ hr ih => exact WF.exec ih op hr

/-! ## The methods of `db` over the in-memory store -/

theorem Set_memory (d : db memoryStore) (k : String) (v : Int) (h : Heap) :
    db.Set memoryStore.impl d k v h
      = d.innermost.map (fun s => (d, h.write s.ref ((h.read s.ref).insert k v))) :=
  db.Set_eq _ d k v h

theorem Unset_memory (d : db memoryStore) (k : String) (h : Heap) :
    db.Unset memoryStore.impl d k h
      = d.innermost.map (fun s => (d, h.write s.ref ((h.read s.ref).erase k))) :=
  db.Unset_eq _ d k h

theorem Begin_memory (d : db memoryStore) (h : Heap) :
    db.Begin memoryStore.impl d h
      = d.innermost.map (fun s => (d.push (some ⟨h.next⟩), (memoryStore.Clone s h).2)) :=
  db.Begin_eq _ d h

theorem Commit_memory (d : db memoryStore) (h : Heap) (hd : 1 ≤ d.depth) :
    db.Commit memoryStore.impl d h = d.innermost.map (fun s => (none, db.leaf (some s), h)) :=
  db.Commit_eq _ d h hd

theorem nested_reachable : Reachable nested :=
  @Reachable.step _ _ Op.Begin (Ret.unit, nested.1, nested.2) (Reachable.init Heap.empty) rfl

theorem nested_wf : WF nested.1 nested.2 := Reachable.wf nested_reachable

theorem scenario_rollback (d : db memoryStore) (h : Heap) (hwf : WF d h) (k : String) :
    ∃ h', db.run memoryStore.impl d h
        [Op.Begin, Op.Set k 1, Op.Begin, Op.Set k 2, Op.Rollback, Op.Get k, Op.Rollback]
      = some ([Ret.unit, Ret.unit, Ret.unit, Ret.unit, Ret.error none, Ret.value 1 true,
          Ret.error none], d, h') := by
  obtain ⟨s, hs, hlt, -⟩ := hwf.innermost
  simp [db.run, db.exec, Begin_memory, Set_memory, Get_memory, hs, db.innermost_push, db.Rollback_push,
    Clone_next]
  rw [Clone_read_ne _ _ (by simp [Clone_next])]
  simp

theorem Commit_push (d : db memoryStore) (c : Option memoryStore) (h : Heap) :
    db.Commit memoryStore.impl (d.push c) h = c.map (fun s => (none, db.leaf (some s), h)) := by
  rw [Commit_memory _ _ (by simp [db.depth_push]), db.innermost_push]

theorem Commit_leaf {σ ω : Type} (S : Store σ ω) (store : Option σ) (w : ω) :
    db.Commit S (db.leaf store) w = some (some Error.ErrNoActiveTransaction, db.leaf store, w) := rfl

theorem Rollback_leaf {σ : Type} (store : Option σ) :
    db.Rollback (db.leaf store) = (some Error.ErrNoActiveTransaction, db.leaf store) := rfl

theorem scenario_commit (d : db memoryStore) (h : Heap) (hwf : WF d h) (k : String) :
    ∃ d' h', db.run memoryStore.impl d h
        [Op.Begin, Op.Set k 1, Op.Begin, Op.Set k 2, Op.Commit, Op.Get k, Op.Commit, Op.Rollback]
      = some ([Ret.unit, Ret.unit, Ret.unit, Ret.unit, Ret.error none, Ret.value 2 true,
          Ret.error (some Error.ErrNoActiveTransaction),
          Ret.error (some Error.ErrNoActiveTransaction)], d', h') ∧ d'.depth = 0 := by
  obtain ⟨s, hs, hlt, -⟩ := hwf.innermost
  simp [db.run, db.exec, Begin_memory, Set_memory, Get_memory, hs, db.innermost_push,
    Clone_next, Commit_push, Commit_leaf, Rollback_leaf, db.innermost, db.depth]

theorem db.run_cons {σ ω : Type} (S : Store σ ω) (d : db σ) (w : ω) (op : Op) (ops : List Op) :
    db.run S d w (op :: ops)
      = match db.exec S d w op with
        | none => none
        | some r =>
          match db.run S r.2.1 r.2.2 ops with
          | none => none
          | some rs => some (r.1 :: rs.1, rs.2.1, rs.2.2) := rfl

theorem db.run_append {σ ω : Type} (S : Store σ ω) (d : db σ) (w : ω) (xs ys : List Op) :
    db.run S d w (xs ++ ys)
      = match db.run S d w xs with
        | none => none
        | some r =>
          match db.run S r.2.1 r.2.2 ys with
          | none => none
          | some r2 => some (r.1 ++ r2.1, r2.2.1, r2.2.2) := by
  induction xs generalizing d w with
  | nil =>
    simp only [List.nil_append, db.run]
    cases db.run S d w ys <;> rfl
  | cons op xs ih =>
    rw [List.cons_append, db.run_cons, db.run_cons]
    cases db.exec S d w op with
    | none => rfl
    | some r =>
      simp only []
      rw [ih]
      cases db.run S r.2.1 r.2.2 xs with
      | none => rfl
      | some r1 =>
        simp only []
        cases db.run S r1.2.1 r1.2.2 ys <;> simp

theorem run_writes (d : db memoryStore) (c : memoryStore) (hc : d.innermost = some c)
    (ws : List Op) (hws : ∀ op ∈ ws, op.isWrite = true) (g : Heap) :
    ∃ rets g', db.run memoryStore.impl d g ws = some (rets, d, g') ∧ g'.next = g.next ∧
      ∀ a, a ≠ c.ref → g'.read a = g.read a := by
  induction ws generalizing g with
  | nil => exact ⟨[], g, rfl, rfl, fun _ _ => rfl⟩
  | cons op ws ih =>
    have hop := hws op (List.mem_cons_self _ _)
    have hrest : ∀ o ∈ ws, o.isWrite = true := fun o ho => hws o (List.mem_cons_of_mem _ ho)
    cases op with
    | Set key value =>
      obtain ⟨rets, g', hrun, hnext, hread⟩ :=
        ih hrest (g.write c.ref ((g.read c.ref).insert key value))
      refine ⟨Ret.unit :: rets, g', ?_, by simpa using hnext, ?_⟩
      · simp [db.run, db.exec, Set_memory, hc, hrun]
      · intro a ha
        rw [hread a ha, Heap.read_write_ne _ ha]
    | Unset key =>
      obtain ⟨rets, g', hrun, hnext, hread⟩ :=
        ih hrest (g.write c.ref ((g.read c.ref).erase key))
      refine ⟨Ret.unit :: rets, g', ?_, by simpa using hnext, ?_⟩
      · simp [db.run, db.exec, Unset_memory, hc, hrun]
      · intro a ha
        rw [hread a ha, Heap.read_write_ne _ ha]
    | Get key => simp [Op.isWrite] at hop
    | Begin => simp [Op.isWrite] at hop
    | Commit => simp [Op.isWrite] at hop
    | Rollback => simp [Op.isWrite] at hop

theorem Clone_perm (s : memoryStore) (h : Heap) (hs : s.ref ≠ h.next) :
    ((memoryStore.Clone s h).2.read h.next).entries.Perm (h.read s.ref).entries := by
  apply List.lookup_ext (AList.nodupKeys _) (AList.nodupKeys _)
  intro x y
  have := Clone_lookup s h hs x
  simp only [AList.lookup] at this
  rw [this]

theorem ref_ne_of_ne {s c : memoryStore} (hne : s ≠ c) : s.ref ≠ c.ref := by
  intro he
  apply hne
  cases s; cases c
  simp only at he
  rw [he]

theorem db.store_mem_outer {σ : Type} (d : db σ) (hn : 1 ≤ d.depth) : d.store ∈ d.outer := by
  cases d with
  | leaf store => simp [db.depth] at hn
  | node store t => simp [db.outer, db.store]

theorem db.mem_stores_of_mem_outer {σ : Type} (d : db σ) {o : Option σ} (ho : o ∈ d.outer) :
    o ∈ d.stores := by
  rw [db.stores_eq]
  exact List.mem_append_left _ ho

theorem Find_fst (s : memoryStore) (k : String) (h : Heap) :
    (memoryStore.Find s k h).1
      = (((h.read s.ref).lookup k).map (fun v => { value := Value.int v }), none) := by
  unfold memoryStore.Find
  cases (h.read s.ref).lookup k <;> rfl

theorem erase_of_lookup_none (m : GoMap) (k : String) (hk : m.lookup k = none) : m.erase k = m := by
  apply AList.ext
  rw [AList.lookup_eq_none] at hk
  exact List.kerase_of_not_mem_keys hk

theorem erase_idem (m : GoMap) (k : String) : (m.erase k).erase k = m.erase k :=
  erase_of_lookup_none _ _ (AList.lookup_erase k m)

theorem exec_total {d : db memoryStore} {h : Heap} (hwf : WF d h) (op : Op) :
    ∃ r, db.exec memoryStore.impl d h op = some r ∧
      ∀ e, r.1 = Ret.error (some e) → e = Error.ErrNoActiveTransaction := by
  obtain ⟨s, hs, -, -⟩ := hwf.innermost
  cases op with
  | Set key value =>
    have e : db.exec memoryStore.impl d h (Op.Set key value)
        = some (Ret.unit, d, h.write s.ref ((h.read s.ref).insert key value)) := by
      simp only [db.exec, Set_memory, hs, Option.map_some']
    exact ⟨_, e, by simp⟩
  | Get key =>
    simp only [db.exec, Get_memory, hs, Option.map_some']
    exact ⟨_, rfl, by simp⟩
  | Unset key =>
    have e : db.exec memoryStore.impl d h (Op.Unset key)
        = some (Ret.unit, d, h.write s.ref ((h.read s.ref).erase key)) := by
      simp only [db.exec, Unset_memory, hs, Option.map_some']
    exact ⟨_, e, by simp⟩
  | Begin =>
    have e : db.exec memoryStore.impl d h Op.Begin
        = some (Ret.unit, d.push (some ⟨h.next⟩), (memoryStore.Clone s h).2) := by
      simp only [db.exec, Begin_memory, hs, Option.map_some']
    exact ⟨_, e, by simp⟩
  | Commit =>
    cases d with
    | leaf store =>
      refine ⟨_, rfl, ?_⟩
      intro e he
      simp only [Ret.error.injEq, Option.some.injEq] at he
      exact he.symm
    | node store t =>
      have e : db.exec memoryStore.impl (db.node store t) h Op.Commit
          = some (Ret.error none, db.leaf (some s), h) := by
        simp only [db.exec, Commit_memory _ _ (show 1 ≤ (db.node store t).depth by
          simp [db.depth]), hs, Option.map_some']
      exact ⟨_, e, by simp⟩
  | Rollback =>
    cases d with
    | leaf store =>
      refine ⟨_, rfl, ?_⟩
      intro e he
      simp only [db.Rollback, Ret.error.injEq, Option.some.injEq] at he
      exact he.symm
    | node store t => exact ⟨_, rfl, by simp [db.Rollback]⟩

theorem run_total {d : db memoryStore} {h : Heap} (hwf : WF d h) (ops : List Op) :
    ∃ rets d' h', db.run memoryStore.impl d h ops = some (rets, d', h') ∧ WF d' h' ∧
      ∀ e, Ret.error (some e) ∈ rets → e = Error.ErrNoActiveTransaction := by
  induction ops generalizing d h with
  | nil => exact ⟨[], d, h, rfl, hwf, by simp⟩
  | cons op ops ih =>
    obtain ⟨r, hr, herr⟩ := exec_total hwf op
    obtain ⟨rets, d', h', hrun, hwf', herrs⟩ := ih (WF.exec hwf op hr)
    refine ⟨r.1 :: rets, d', h', ?_, hwf', ?_⟩
    · rw [db.run_cons, hr]
      simp only [hrun]
    · intro e he
      rcases List.mem_cons.1 he with he | he
      · exact herr e he.symm
      · exact herrs e he

theorem WF.ne_none {d : db memoryStore} {h : Heap} (hwf : WF d h) : ∀ o ∈ d.stores, o ≠ none := by
  obtain ⟨l, hl, -, -⟩ := hwf
  intro o ho
  rw [hl] at ho
  obtain ⟨s, -, hs⟩ := List.mem_map.1 ho
  rw [← hs]
  simp

/-! ## Refinement of the frame-stack model -/

theorem Heap.contents_write_same (h : Heap) (s : memoryStore) (m : GoMap) :
    (h.write s.ref m).contents (some s) = fun k => m.lookup k := by
  funext k
  simp [Heap.contents]

theorem Heap.contents_write_ne (h : Heap) (s : memoryStore) (m : GoMap) {o : Option memoryStore}
    (ho : o ≠ some s) : (h.write s.ref m).contents o = h.contents o := by
  cases o with
  | none => rfl
  | some s' =>
    have hne : s' ≠ s := fun he => ho (by rw [he])
    funext k
    simp [Heap.contents, Heap.read_write_ne _ (ref_ne_of_ne hne)]

theorem Heap.contents_Clone_old (h : Heap) (s : memoryStore) {o : Option memoryStore}
    (ho : ∀ s', o = some s' → s'.ref < h.next) :
    (memoryStore.Clone s h).2.contents o = h.contents o := by
  cases o with
  | none => rfl
  | some s' =>
    funext k
    simp [Heap.contents, Clone_read_ne s h (Nat.ne_of_lt (ho s' rfl))]

theorem Heap.contents_Clone_new (h : Heap) (s : memoryStore) (hs : s.ref < h.next) :
    (memoryStore.Clone s h).2.contents (some ⟨h.next⟩) = h.contents (some s) := by
  funext k
  simp only [Heap.contents]
  exact Clone_lookup s h (Nat.ne_of_lt hs) k

theorem lookup_insert_eq_update (m : GoMap) (k : String) (v : Int) :
    (fun k' => (m.insert k v).lookup k') = Function.update (fun k' => m.lookup k') k (some v) := by
  funext k'
  by_cases hk : k' = k
  · subst hk
    simp
  · simp [Function.update_noteq hk, AList.lookup_insert_ne hk]

theorem lookup_erase_eq_update (m : GoMap) (k : String) :
    (fun k' => (m.erase k).lookup k') = Function.update (fun k' => m.lookup k') k none := by
  funext k'
  by_cases hk : k' = k
  · subst hk
    simp
  · simp [Function.update_noteq hk, AList.lookup_erase_ne hk]

theorem db.abs_of_stores (h : Heap) (d : db memoryStore) {x : Option memoryStore}
    {xs : List (Option memoryStore)} (hd : d.stores = x :: xs) :
    db.abs h d = { base := h.contents x, frames := xs.map h.contents } := by
  cases d with
  | leaf store =>
    simp only [db.stores, List.cons.injEq] at hd
    obtain ⟨rfl, rfl⟩ := hd
    rfl
  | node store t =>
    simp only [db.stores, List.cons.injEq] at hd
    obtain ⟨rfl, rfl⟩ := hd
    rfl

theorem db.abs_top (h : Heap) (d : db memoryStore) : (db.abs h d).top = h.contents d.innermost := by
  cases d with
  | leaf store => rfl
  | node store t =>
    simp only [db.abs, FrameStack.top, db.innermost]
    rw [db.stores_eq t]
    simp

theorem FrameStack.setTop_append (b : String → Option Int) (fs : List (String → Option Int))
    (g f : String → Option Int) :
    FrameStack.setTop { base := b, frames := fs ++ [g] } f = { base := b, frames := fs ++ [f] } := by
  unfold FrameStack.setTop
  cases hfs : fs ++ [g] with
  | nil => simp at hfs
  | cons a l =>
    simp only []
    rw [← hfs]
    simp

theorem db.abs_write {d : db memoryStore} {h : Heap} {s : memoryStore} (hs : d.innermost = some s)
    (hout : some s ∉ d.outer) (m : GoMap) :
    db.abs (h.write s.ref m) d = (db.abs h d).setTop (fun k => m.lookup k) := by
  cases d with
  | leaf store =>
    simp only [db.innermost] at hs
    subst hs
    simp only [db.abs, Heap.contents_write_same]
    rfl
  | node store t =>
    simp only [db.innermost] at hs
    simp only [db.outer, List.mem_cons, not_or] at hout
    simp only [db.abs]
    rw [Heap.contents_write_ne _ _ _ (fun he => hout.1 he.symm), db.stores_eq t, hs]
    simp only [List.map_append, List.map_cons, List.map_nil, Heap.contents_write_same]
    rw [FrameStack.setTop_append]
    congr 2
    apply List.map_congr_left
    intro o ho
    exact Heap.contents_write_ne _ _ _ (fun he => hout.2 (he ▸ ho))

theorem db.abs_push {d : db memoryStore} {h : Heap} (hwf : WF d h) {s : memoryStore}
    (hs : d.innermost = some s) :
    db.abs (memoryStore.Clone s h).2 (d.push (some ⟨h.next⟩))
      = { db.abs h d with frames := (db.abs h d).frames ++ [(db.abs h d).top] } := by
  have hlt : s.ref < h.next := by
    apply hwf.mem_lt
    rw [db.stores_eq, hs]
    simp
  have hold : ∀ o ∈ d.stores, (memoryStore.Clone s h).2.contents o = h.contents o := by
    intro o ho
    apply Heap.contents_Clone_old
    intro s' hs'
    exact hwf.mem_lt (hs' ▸ ho)
  rw [db.abs_top, hs]
  cases d with
  | leaf store =>
    simp only [db.innermost] at hs
    subst hs
    simp only [db.push, db.abs, db.stores, List.map_cons, List.map_nil, List.nil_append,
      Heap.contents_Clone_new h s hlt]
    rw [hold (some s) (by simp [db.stores])]
  | node store t =>
    simp only [db.push, db.abs, db.stores_push, List.map_append, List.map_cons, List.map_nil,
      Heap.contents_Clone_new h s hlt]
    rw [hold store (by simp [db.stores])]
    congr 2
    apply List.map_congr_left
    intro o ho
    exact hold o (by simp [db.stores, ho])

theorem sim_exec {d : db memoryStore} {h : Heap} (hwf : WF d h) (op : Op) :
    ∃ d' h', db.exec memoryStore.impl d h op
        = some ((FrameStack.exec (db.abs h d) op).1, d', h') ∧
      db.abs h' d' = (FrameStack.exec (db.abs h d) op).2 := by
  obtain ⟨s, hs, hlt, hout⟩ := hwf.innermost
  cases op with
  | Set key value =>
    refine ⟨d, h.write s.ref ((h.read s.ref).insert key value), ?_, ?_⟩
    · simp only [db.exec, Set_memory, hs, Option.map_some']
      rfl
    · rw [db.abs_write hs hout, lookup_insert_eq_update]
      simp only [FrameStack.exec, db.abs_top, hs]
      rfl
  | Unset key =>
    refine ⟨d, h.write s.ref ((h.read s.ref).erase key), ?_, ?_⟩
    · simp only [db.exec, Unset_memory, hs, Option.map_some']
      rfl
    · rw [db.abs_write hs hout, lookup_erase_eq_update]
      simp only [FrameStack.exec, db.abs_top, hs]
      rfl
  | Get key =>
    refine ⟨d, h, ?_, rfl⟩
    simp only [db.exec, Get_memory, hs, Option.map_some', FrameStack.exec, db.abs_top,
      Heap.contents]
    cases (h.read s.ref).lookup key <;> rfl
  | Begin =>
    refine ⟨d.push (some ⟨h.next⟩), (memoryStore.Clone s h).2, ?_, ?_⟩
    · simp only [db.exec, Begin_memory, hs, Option.map_some']
      rfl
    · rw [db.abs_push hwf hs]
      rfl
  | Commit =>
    cases d with
    | leaf store => exact ⟨db.leaf store, h, rfl, rfl⟩
    | node store t =>
      refine ⟨db.leaf (some s), h, ?_, ?_⟩
      · simp only [db.exec, Commit_memory _ _ (show 1 ≤ (db.node store t).depth by
          simp [db.depth]), hs, Option.map_some']
        simp only [FrameStack.exec, db.abs]
        rw [db.stores_eq t]
        cases hfs : List.map h.contents (t.outer ++ [t.innermost]) with
        | nil => simp at hfs
        | cons a l => rfl
      · have htop := db.abs_top h (db.node store t)
        rw [hs] at htop
        simp only [FrameStack.exec, db.abs] at htop ⊢
        rw [db.stores_eq t] at htop ⊢
        cases hfs : List.map h.contents (t.outer ++ [t.innermost]) with
        | nil => simp at hfs
        | cons a l =>
          rw [hfs] at htop
          simp only [htop]
  | Rollback =>
    cases d with
    | leaf store => exact ⟨db.leaf store, h, rfl, rfl⟩
    | node store t =>
      refine ⟨db.Rollback.loop store t, h, ?_, ?_⟩
      · simp only [db.exec, db.Rollback, FrameStack.exec, db.abs]
        rw [db.stores_eq t]
        cases hfs : List.map h.contents (t.outer ++ [t.innermost]) with
        | nil => simp at hfs
        | cons a l => rfl
      · rw [db.abs_of_stores h _ (db.Rollback_loop_stores store t)]
        simp only [FrameStack.exec, db.abs]
        rw [db.stores_eq t]
        cases hfs : List.map h.contents (t.outer ++ [t.innermost]) with
        | nil => simp at hfs
        | cons a l =>
          simp only []
          rw [← hfs]
          simp

theorem sim_run {d : db memoryStore} {h : Heap} (hwf : WF d h) (ops : List Op) :
    ∃ d' h', db.run memoryStore.impl d h ops = some ((FrameStack.run (db.abs h d) ops).1, d', h') ∧
      db.abs h' d' = (FrameStack.run (db.abs h d) ops).2 := by
  induction ops generalizing d h with
  | nil => exact ⟨d, h, rfl, rfl⟩
  | cons op ops ih =>
    obtain ⟨d1, h1, he, ha⟩ := sim_exec hwf op
    obtain ⟨d2, h2, hr, hb⟩ := ih (WF.exec hwf op he)
    refine ⟨d2, h2, ?_, ?_⟩
    · rw [db.run_cons, he]
      simp only [hr, ha, FrameStack.run]
    · rw [hb]
      simp only [ha, FrameStack.run]

theorem db.abs_NewDatabase (h0 : Heap) :
    db.abs (NewDatabase h0).2 (NewDatabase h0).1 = FrameStack.init := by
  simp only [NewDatabase, defaultDatabase, NewDatabaseWithMemoryStore, NewMemoryStore,
    NewDatabaseWithStore, db.abs, FrameStack.init, Heap.alloc]
  congr 1
  funext k
  simp [Heap.contents, Heap.read]

/-! ## The claims -/

/-- C1: in every state reachable from `NewDatabase()`, `Set(k, v)` succeeds and the `Get(k)`
that follows returns `(v, true)`. -/
theorem C1_set_then_get (d : db memoryStore) (h : Heap) (hr : Reachable (d, h))
    (k : String) (v : Int) :
    ∃ d' h', db.Set memoryStore.impl d k v h = some (d', h') ∧
      db.Get memoryStore.impl d' k h' = some ((v, true), h') := by
  obtain ⟨s, hs, -, -⟩ := (Reachable.wf hr).innermost
  refine ⟨d, h.write s.ref ((h.read s.ref).insert k v), ?_, ?_⟩
  · simp [Set_memory, hs]
  · simp [Get_memory, hs]

theorem C1_set_then_get_witness :
    Reachable (nested.1, nested.2) ∧
      ∃ d' h', db.Set memoryStore.impl nested.1 "a" 7 nested.2 = some (d', h') ∧
        db.Get memoryStore.impl d' "a" h' = some ((7, true), h') :=
  ⟨nested_reachable, C1_set_then_get nested.1 nested.2 nested_reachable "a" 7⟩

/-- C2: in every well-formed state, `Unset(k)` succeeds and the `Get(k)` that follows
returns `(0, false)`. -/
theorem C2_unset_then_get (d : db memoryStore) (h : Heap) (hwf : WF d h) (k : String) :
    ∃ d' h', db.Unset memoryStore.impl d k h = some (d', h') ∧
      db.Get memoryStore.impl d' k h' = some ((0, false), h') := by
  obtain ⟨s, hs, -, -⟩ := hwf.innermost
  refine ⟨d, h.write s.ref ((h.read s.ref).erase k), ?_, ?_⟩
  · simp [Unset_memory, hs]
  · simp [Get_memory, hs]

theorem C2_unset_then_get_witness :
    WF nested.1 nested.2 ∧
      ∃ d' h', db.Unset memoryStore.impl nested.1 "a" nested.2 = some (d', h') ∧
        db.Get memoryStore.impl d' "a" h' = some ((0, false), h') :=
  ⟨nested_wf, C2_unset_then_get nested.1 nested.2 nested_wf "a"⟩

/-- C3: when `d.transaction` is nil, `Commit()` and `Rollback()` return
`ErrNoActiveTransaction` and change nothing. -/
theorem C3_no_active_transaction {σ ω : Type} (S : Store σ ω) (d : db σ) (w : ω)
    (hd : d.transaction = none) :
    db.Commit S d w = some (some Error.ErrNoActiveTransaction, d, w) ∧
    db.Rollback d = (some Error.ErrNoActiveTransaction, d) ∧
    ∀ log : List (Call σ),
      db.exec S.traced d (w, log) Op.Commit
          = some (Ret.error (some Error.ErrNoActiveTransaction), d, (w, log)) ∧
      db.exec S.traced d (w, log) Op.Rollback
          = some (Ret.error (some Error.ErrNoActiveTransaction), d, (w, log)) := by
  cases d with
  | leaf store => exact ⟨rfl, rfl, fun _ => ⟨rfl, rfl⟩⟩
  | node store t => simp [db.transaction] at hd

theorem C3_no_active_transaction_witness :
    fresh.1.transaction = none ∧
    (db.Commit memoryStore.impl fresh.1 fresh.2 = some (some Error.ErrNoActiveTransaction, fresh.1, fresh.2) ∧
    db.Rollback fresh.1 = (some Error.ErrNoActiveTransaction, fresh.1) ∧
    ∀ log : List (Call memoryStore),
      db.exec memoryStore.impl.traced fresh.1 (fresh.2, log) Op.Commit
          = some (Ret.error (some Error.ErrNoActiveTransaction), fresh.1, (fresh.2, log)) ∧
      db.exec memoryStore.impl.traced fresh.1 (fresh.2, log) Op.Rollback
          = some (Ret.error (some Error.ErrNoActiveTransaction), fresh.1, (fresh.2, log))) :=
  ⟨rfl, C3_no_active_transaction memoryStore.impl fresh.1 fresh.2 rfl⟩

/-- C4: with at least one open transaction `Rollback()` returns nil, touches no store and removes
exactly the deepest frame; after `Begin(); Set(k,1); Begin(); Set(k,2); Rollback()` the call
`Get(k)` returns `(1, true)` and one more `Rollback()` returns nil. -/
theorem C4_rollback_removes_deepest {σ ω : Type} (S : Store σ ω) (d : db σ) (w : ω)
    (hn : 1 ≤ d.depth) (dm : db memoryStore) (h : Heap) (hwf : WF dm h) (k : String) :
    (∃ d', db.exec S d w Op.Rollback = some (Ret.error none, d', w) ∧
        d'.depth = d.depth - 1 ∧ d'.stores = d.stores.dropLast) ∧
    ∃ h', db.run memoryStore.impl dm h
        [Op.Begin, Op.Set k 1, Op.Begin, Op.Set k 2, Op.Rollback, Op.Get k, Op.Rollback]
      = some ([Ret.unit, Ret.unit, Ret.unit, Ret.unit, Ret.error none, Ret.value 1 true,
          Ret.error none], dm, h') := by
  refine ⟨?_, scenario_rollback dm h hwf k⟩
  cases d with
  | leaf store => simp [db.depth] at hn
  | node store t =>
    refine ⟨db.Rollback.loop store t, rfl, ?_, ?_⟩
    · have h1 := db.length_stores (db.Rollback.loop store t)
      rw [db.Rollback_loop_stores] at h1
      simp only [List.length_cons, db.length_outer] at h1
      simp only [db.depth]
      omega
    · rw [db.Rollback_loop_stores, ← db.outer_eq_dropLast]
      rfl

theorem C4_rollback_removes_deepest_witness :
    (1 ≤ nested.1.depth ∧ WF nested.1 nested.2) ∧
    ((∃ d', db.exec memoryStore.impl nested.1 nested.2 Op.Rollback
          = some (Ret.error none, d', nested.2) ∧
        d'.depth = nested.1.depth - 1 ∧ d'.stores = nested.1.stores.dropLast) ∧
    ∃ h', db.run memoryStore.impl nested.1 nested.2
        [Op.Begin, Op.Set "a" 1, Op.Begin, Op.Set "a" 2, Op.Rollback, Op.Get "a", Op.Rollback]
      = some ([Ret.unit, Ret.unit, Ret.unit, Ret.unit, Ret.error none, Ret.value 1 true,
          Ret.error none], nested.1, h')) :=
  ⟨⟨by decide, nested_wf⟩,
    C4_rollback_removes_deepest memoryStore.impl nested.1 nested.2 (by decide) nested.1 nested.2
      nested_wf "a"⟩

/-- C5: with at least one open transaction over the in-memory store `Commit()` returns nil,
leaves a root that owns the deepest frame's store and has no transaction, so that a second
`Commit()` or a `Rollback()` returns `ErrNoActiveTransaction`, and every `Get(k)` returns what
it returned before; `Begin(); Set(k,1); Begin(); Set(k,2); Commit(); Get(k)` returns
`(2, true)`. -/
theorem C5_commit_adopts_deepest (d : db memoryStore) (h : Heap) (hwf : WF d h)
    (hn : 1 ≤ d.depth) (d0 : db memoryStore) (h0 : Heap) (hwf0 : WF d0 h0) (k0 : String) :
    (∃ d', db.Commit memoryStore.impl d h = some (none, d', h) ∧
        d' = db.leaf d.innermost ∧ d'.depth = 0 ∧ d'.transaction = none ∧
        db.Commit memoryStore.impl d' h = some (some Error.ErrNoActiveTransaction, d', h) ∧
        db.Rollback d' = (some Error.ErrNoActiveTransaction, d') ∧
        ∀ k, db.Get memoryStore.impl d' k h = db.Get memoryStore.impl d k h) ∧
    ∃ d1 h1, db.run memoryStore.impl d0 h0
        [Op.Begin, Op.Set k0 1, Op.Begin, Op.Set k0 2, Op.Commit, Op.Get k0, Op.Commit,
          Op.Rollback]
      = some ([Ret.unit, Ret.unit, Ret.unit, Ret.unit, Ret.error none, Ret.value 2 true,
          Ret.error (some Error.ErrNoActiveTransaction),
          Ret.error (some Error.ErrNoActiveTransaction)], d1, h1) ∧ d1.depth = 0 := by
  refine ⟨?_, scenario_commit d0 h0 hwf0 k0⟩
  obtain ⟨s, hs, -, -⟩ := hwf.innermost
  refine ⟨db.leaf (some s), ?_, by rw [hs], rfl, rfl, rfl, rfl, ?_⟩
  · simp [Commit_memory _ _ hn, hs]
  · intro k
    rw [db.Get_eq _ d, hs]

theorem C5_commit_adopts_deepest_witness :
    (WF nested.1 nested.2 ∧ 1 ≤ nested.1.depth ∧ WF fresh.1 fresh.2) ∧
    ((∃ d', db.Commit memoryStore.impl nested.1 nested.2 = some (none, d', nested.2) ∧
        d' = db.leaf nested.1.innermost ∧ d'.depth = 0 ∧ d'.transaction = none ∧
        db.Commit memoryStore.impl d' nested.2
          = some (some Error.ErrNoActiveTransaction, d', nested.2) ∧
        db.Rollback d' = (some Error.ErrNoActiveTransaction, d') ∧
        ∀ k, db.Get memoryStore.impl d' k nested.2 = db.Get memoryStore.impl nested.1 k nested.2) ∧
    ∃ d1 h1, db.run memoryStore.impl fresh.1 fresh.2
        [Op.Begin, Op.Set "a" 1, Op.Begin, Op.Set "a" 2, Op.Commit, Op.Get "a", Op.Commit,
          Op.Rollback]
      = some ([Ret.unit, Ret.unit, Ret.unit, Ret.unit, Ret.error none, Ret.value 2 true,
          Ret.error (some Error.ErrNoActiveTransaction),
          Ret.error (some Error.ErrNoActiveTransaction)], d1, h1) ∧ d1.depth = 0) :=
  ⟨⟨nested_wf, by decide, WF.NewDatabase Heap.empty⟩,
    C5_commit_adopts_deepest nested.1 nested.2 nested_wf (by decide) fresh.1 fresh.2
      (WF.NewDatabase Heap.empty) "a"⟩

/-- C6: `Begin()`, then any sequence of `Set` and `Unset` calls, then `Rollback()` runs without
failure and leaves the number of open transactions and the result of every `Get(k)` as they
were. -/
theorem C6_rollback_undoes_block (d : db memoryStore) (h : Heap) (hwf : WF d h)
    (ws : List Op) (hws : ∀ op ∈ ws, op.isWrite = true) :
    ∃ rets d' h', db.run memoryStore.impl d h (Op.Begin :: (ws ++ [Op.Rollback]))
        = some (rets, d', h') ∧
      rets.getLast? = some (Ret.error none) ∧ d'.depth = d.depth ∧
      ∀ k, ∃ r, db.Get memoryStore.impl d k h = some (r, h) ∧
        db.Get memoryStore.impl d' k h' = some (r, h') := by
  obtain ⟨s, hs, hlt, -⟩ := hwf.innermost
  obtain ⟨rets, g', hrun, -, hread⟩ :=
    run_writes (d.push (some ⟨h.next⟩)) ⟨h.next⟩ (db.innermost_push _ _) ws hws
      (memoryStore.Clone s h).2
  refine ⟨Ret.unit :: (rets ++ [Ret.error none]), d, g', ?_, ?_, rfl, ?_⟩
  · simp [db.run, db.exec, Begin_memory, hs, db.run_append, hrun, db.Rollback_push]
  · rw [← List.cons_append, List.getLast?_append]
    rfl
  · intro k
    have hne : s.ref ≠ h.next := Nat.ne_of_lt hlt
    refine ⟨_, by simp only [Get_memory, hs, Option.map_some']; rfl, ?_⟩
    simp only [Get_memory, hs, Option.map_some']
    rw [hread s.ref hne, Clone_read_ne s h hne]

theorem C6_rollback_undoes_block_witness :
    (WF nested.1 nested.2 ∧
      ∀ op ∈ [Op.Set "a" 3, Op.Unset "b", Op.Set "b" 4], op.isWrite = true) ∧
    ∃ rets d' h', db.run memoryStore.impl nested.1 nested.2
        (Op.Begin :: ([Op.Set "a" 3, Op.Unset "b", Op.Set "b" 4] ++ [Op.Rollback]))
        = some (rets, d', h') ∧
      rets.getLast? = some (Ret.error none) ∧ d'.depth = nested.1.depth ∧
      ∀ k, ∃ r, db.Get memoryStore.impl nested.1 k nested.2 = some (r, nested.2) ∧
        db.Get memoryStore.impl d' k h' = some (r, h') :=
  ⟨⟨nested_wf, by decide⟩,
    C6_rollback_undoes_block nested.1 nested.2 nested_wf _ (by decide)⟩

/-- C7: `Begin()` succeeds on every well-formed state and appends one frame below the deepest:
the stores of the root and of the existing frames keep their contents, the new store holds
exactly the entries of the previously innermost store, and every `Get(k)` returns what it
returned before. -/
theorem C7_begin_opens_innermost (d : db memoryStore) (h : Heap) (hwf : WF d h) :
    ∃ s c d' h', d.innermost = some s ∧ db.Begin memoryStore.impl d h = some (d', h') ∧
      d'.depth = d.depth + 1 ∧ d'.stores = d.stores ++ [some c] ∧ d'.innermost = some c ∧
      (∀ s', some s' ∈ d.stores → h'.read s'.ref = h.read s'.ref) ∧
      (h'.read c.ref).entries.Perm (h.read s.ref).entries ∧
      ∀ k, ∃ r, db.Get memoryStore.impl d k h = some (r, h) ∧
        db.Get memoryStore.impl d' k h' = some (r, h') := by
  obtain ⟨s, hs, hlt, -⟩ := hwf.innermost
  have hne : s.ref ≠ h.next := Nat.ne_of_lt hlt
  refine ⟨s, ⟨h.next⟩, d.push (some ⟨h.next⟩), (memoryStore.Clone s h).2, hs, ?_,
    db.depth_push _ _, db.stores_push _ _, db.innermost_push _ _, ?_, Clone_perm s h hne, ?_⟩
  · simp [Begin_memory, hs]
  · intro s' hs'
    exact Clone_read_ne s h (Nat.ne_of_lt (hwf.mem_lt hs'))
  · intro k
    refine ⟨_, by simp only [Get_memory, hs, Option.map_some']; rfl, ?_⟩
    simp only [Get_memory, db.innermost_push, Option.map_some']
    have := Clone_lookup s h hne k
    simp only [] at this ⊢
    rw [this]

theorem C7_begin_opens_innermost_witness :
    WF nested.1 nested.2 ∧
    ∃ s c d' h', nested.1.innermost = some s ∧
      db.Begin memoryStore.impl nested.1 nested.2 = some (d', h') ∧
      d'.depth = nested.1.depth + 1 ∧ d'.stores = nested.1.stores ++ [some c] ∧
      d'.innermost = some c ∧
      (∀ s', some s' ∈ nested.1.stores → h'.read s'.ref = nested.2.read s'.ref) ∧
      (h'.read c.ref).entries.Perm (nested.2.read s.ref).entries ∧
      ∀ k, ∃ r, db.Get memoryStore.impl nested.1 k nested.2 = some (r, nested.2) ∧
        db.Get memoryStore.impl d' k h' = some (r, h') :=
  ⟨nested_wf, C7_begin_opens_innermost nested.1 nested.2 nested_wf⟩

/-- C8: a `Set(k, v)` or `Unset(k)` leaves the chain as it is and makes exactly one store
call, `Save` or `Delete` on the deepest frame's store (for any backend); over the in-memory
store, while a transaction is open, the contents of the root's store and of every non-deepest
frame's store are unchanged, so a second database built by `NewDatabaseWithStore` over the
root's store returns the same `Get` results as before the write. -/
theorem C8_writes_touch_only_deepest {σ ω : Type} (S : Store σ ω) (dg : db σ) (sg : σ) (w : ω)
    (log : List (Call σ)) (hsg : dg.innermost = some sg)
    (d : db memoryStore) (h : Heap) (hwf : WF d h) (hn : 1 ≤ d.depth) (k : String) (v : Int) :
    (db.Set S.traced dg k v (w, log)
        = some (dg, ((S.Save sg k v w).2, log ++ [Call.Save sg k v])) ∧
      db.Unset S.traced dg k (w, log)
        = some (dg, ((S.Delete sg k w).2, log ++ [Call.Delete sg k]))) ∧
    (∃ h', db.Set memoryStore.impl d k v h = some (d, h') ∧
      (∀ s, some s ∈ d.outer → h'.read s.ref = h.read s.ref) ∧
      ∀ k', ∃ r, db.Get memoryStore.impl (NewDatabaseWithStore d.store) k' h = some (r, h) ∧
        db.Get memoryStore.impl (NewDatabaseWithStore d.store) k' h' = some (r, h')) ∧
    (∃ h', db.Unset memoryStore.impl d k h = some (d, h') ∧
      (∀ s, some s ∈ d.outer → h'.read s.ref = h.read s.ref) ∧
      ∀ k', ∃ r, db.Get memoryStore.impl (NewDatabaseWithStore d.store) k' h = some (r, h) ∧
        db.Get memoryStore.impl (NewDatabaseWithStore d.store) k' h' = some (r, h')) := by
  obtain ⟨s, hs, -, hout⟩ := hwf.innermost
  have hkeep : ∀ (m : GoMap) (s' : memoryStore), some s' ∈ d.outer →
      (h.write s.ref m).read s'.ref = h.read s'.ref := by
    intro m s' hs'
    have hne : s' ≠ s := by
      rintro rfl
      exact hout hs'
    exact Heap.read_write_ne _ (ref_ne_of_ne hne) _
  have hroot : ∃ s0, d.store = some s0 ∧ some s0 ∈ d.outer := by
    have hmem := db.store_mem_outer d hn
    obtain ⟨l, hl, -, -⟩ := hwf
    have h2 := db.mem_stores_of_mem_outer d hmem
    rw [hl] at h2
    obtain ⟨s0, -, hs0⟩ := List.mem_map.1 h2
    exact ⟨s0, hs0.symm, hs0 ▸ hmem⟩
  obtain ⟨s0, hs0, hs0mem⟩ := hroot
  have hsib : ∀ (m : GoMap) (k' : String),
      ∃ r, db.Get memoryStore.impl (NewDatabaseWithStore d.store) k' h = some (r, h) ∧
        db.Get memoryStore.impl (NewDatabaseWithStore d.store) k' (h.write s.ref m)
          = some (r, h.write s.ref m) := by
    intro m k'
    refine ⟨_, by simp only [Get_memory, NewDatabaseWithStore, db.innermost, hs0,
      Option.map_some']; rfl, ?_⟩
    simp only [Get_memory, NewDatabaseWithStore, db.innermost, hs0, Option.map_some']
    rw [hkeep m s0 hs0mem]
  refine ⟨⟨?_, ?_⟩, ⟨h.write s.ref ((h.read s.ref).insert k v), ?_, hkeep _, hsib _⟩,
    ⟨h.write s.ref ((h.read s.ref).erase k), ?_, hkeep _, hsib _⟩⟩
  · rw [db.Set_eq, hsg]
    rfl
  · rw [db.Unset_eq, hsg]
    rfl
  · simp [Set_memory, hs]
  · simp [Unset_memory, hs]

theorem C8_writes_touch_only_deepest_witness :
    (nested.1.innermost = some ⟨1⟩ ∧ WF nested.1 nested.2 ∧ 1 ≤ nested.1.depth) ∧
    ((db.Set memoryStore.impl.traced nested.1 "a" 7 (nested.2, [])
        = some (nested.1, ((memoryStore.impl.Save ⟨1⟩ "a" 7 nested.2).2,
            [] ++ [Call.Save ⟨1⟩ "a" 7])) ∧
      db.Unset memoryStore.impl.traced nested.1 "a" (nested.2, [])
        = some (nested.1, ((memoryStore.impl.Delete ⟨1⟩ "a" nested.2).2,
            [] ++ [Call.Delete ⟨1⟩ "a"]))) ∧
    (∃ h', db.Set memoryStore.impl nested.1 "a" 7 nested.2 = some (nested.1, h') ∧
      (∀ s, some s ∈ nested.1.outer → h'.read s.ref = nested.2.read s.ref) ∧
      ∀ k', ∃ r, db.Get memoryStore.impl (NewDatabaseWithStore nested.1.store) k' nested.2
          = some (r, nested.2) ∧
        db.Get memoryStore.impl (NewDatabaseWithStore nested.1.store) k' h' = some (r, h')) ∧
    (∃ h', db.Unset memoryStore.impl nested.1 "a" nested.2 = some (nested.1, h') ∧
      (∀ s, some s ∈ nested.1.outer → h'.read s.ref = nested.2.read s.ref) ∧
      ∀ k', ∃ r, db.Get memoryStore.impl (NewDatabaseWithStore nested.1.store) k' nested.2
          = some (r, nested.2) ∧
        db.Get memoryStore.impl (NewDatabaseWithStore nested.1.store) k' h' = some (r, h'))) :=
  ⟨⟨rfl, nested_wf, by decide⟩,
    C8_writes_touch_only_deepest memoryStore.impl nested.1 ⟨1⟩ nested.2 [] rfl
      nested.1 nested.2 nested_wf (by decide) "a" 7⟩

/-- C9: `Clone()` of an allocated in-memory store returns a nil error and a store on which every
`Find(k)` gives what it gives on the original; afterwards, in any heap, `Save` and `Delete`
on either of the two leave every `Find` on the other unchanged. -/
theorem C9_clone_independent (s : memoryStore) (h : Heap) (hs : s.ref < h.next) :
    ∃ c h', memoryStore.Clone s h = ((some c, none), h') ∧
      (∀ k, (memoryStore.Find c k h').1 = (memoryStore.Find s k h).1) ∧
      (∀ k, (memoryStore.Find s k h').1 = (memoryStore.Find s k h).1) ∧
      ∀ (g : Heap) (key : String) (value : Int) (k : String),
        (memoryStore.Find s k (memoryStore.Save c key value g).2).1 = (memoryStore.Find s k g).1 ∧
        (memoryStore.Find s k (memoryStore.Delete c key g).2).1 = (memoryStore.Find s k g).1 ∧
        (memoryStore.Find c k (memoryStore.Save s key value g).2).1 = (memoryStore.Find c k g).1 ∧
        (memoryStore.Find c k (memoryStore.Delete s key g).2).1 = (memoryStore.Find c k g).1 := by
  have hne : s.ref ≠ h.next := Nat.ne_of_lt hs
  refine ⟨⟨h.next⟩, (memoryStore.Clone s h).2, rfl, ?_, ?_, ?_⟩
  · intro k
    rw [Find_fst, Find_fst, Clone_lookup s h hne k]
  · intro k
    rw [Find_fst, Find_fst, Clone_read_ne s h hne]
  · intro g key value k
    simp only [Find_fst, memoryStore.Save, memoryStore.Delete]
    rw [Heap.read_write_ne _ hne, Heap.read_write_ne _ hne, Heap.read_write_ne _ hne.symm,
      Heap.read_write_ne _ hne.symm]
    exact ⟨rfl, rfl, rfl, rfl⟩

theorem C9_clone_independent_witness :
    (⟨0⟩ : memoryStore).ref < fresh.2.next ∧
    ∃ c h', memoryStore.Clone ⟨0⟩ fresh.2 = ((some c, none), h') ∧
      (∀ k, (memoryStore.Find c k h').1 = (memoryStore.Find ⟨0⟩ k fresh.2).1) ∧
      (∀ k, (memoryStore.Find ⟨0⟩ k h').1 = (memoryStore.Find ⟨0⟩ k fresh.2).1) ∧
      ∀ (g : Heap) (key : String) (value : Int) (k : String),
        (memoryStore.Find ⟨0⟩ k (memoryStore.Save c key value g).2).1
          = (memoryStore.Find ⟨0⟩ k g).1 ∧
        (memoryStore.Find ⟨0⟩ k (memoryStore.Delete c key g).2).1
          = (memoryStore.Find ⟨0⟩ k g).1 ∧
        (memoryStore.Find c k (memoryStore.Save ⟨0⟩ key value g).2).1
          = (memoryStore.Find c k g).1 ∧
        (memoryStore.Find c k (memoryStore.Delete ⟨0⟩ key g).2).1
          = (memoryStore.Find c k g).1 :=
  ⟨by decide, C9_clone_independent ⟨0⟩ fresh.2 (by decide)⟩

/-- C10: `Get(k)` returns `(v, true)` exactly when the innermost store maps `k` to `v` and
`(0, false)` exactly when it has no entry for `k`; on a fresh `NewDatabase()` it returns
`(0, false)`, and after `Set(k, 0)` it returns `(0, true)`. -/
theorem C10_get_faithful (d : db memoryStore) (h : Heap) (hwf : WF d h) (k : String)
    (h0 : Heap) :
    (∃ s, d.innermost = some s ∧
      (∀ v, db.Get memoryStore.impl d k h = some ((v, true), h) ↔
        (h.read s.ref).lookup k = some v) ∧
      (db.Get memoryStore.impl d k h = some ((0, false), h) ↔
        (h.read s.ref).lookup k = none)) ∧
    db.Get memoryStore.impl (NewDatabase h0).1 k (NewDatabase h0).2
      = some ((0, false), (NewDatabase h0).2) ∧
    ∃ d' h', db.Set memoryStore.impl (NewDatabase h0).1 k 0 (NewDatabase h0).2 = some (d', h') ∧
      db.Get memoryStore.impl d' k h' = some ((0, true), h') := by
  obtain ⟨s, hs, -, -⟩ := hwf.innermost
  refine ⟨⟨s, hs, ?_, ?_⟩, ?_, ?_⟩
  · intro v
    simp only [Get_memory, hs, Option.map_some']
    cases (h.read s.ref).lookup k <;> simp
  · simp only [Get_memory, hs, Option.map_some']
    cases (h.read s.ref).lookup k <;> simp
  · simp [Get_memory, NewDatabase, defaultDatabase, NewDatabaseWithMemoryStore, NewMemoryStore,
      NewDatabaseWithStore, db.innermost, Heap.alloc, Heap.read]
  · obtain ⟨s0, hs0, -, -⟩ := (WF.NewDatabase h0).innermost
    refine ⟨(NewDatabase h0).1,
      (NewDatabase h0).2.write s0.ref (((NewDatabase h0).2.read s0.ref).insert k 0), ?_, ?_⟩
    · simp [Set_memory, hs0]
    · simp [Get_memory, hs0]

theorem C10_get_faithful_witness :
    WF nested.1 nested.2 ∧
    ((∃ s, nested.1.innermost = some s ∧
      (∀ v, db.Get memoryStore.impl nested.1 "a" nested.2 = some ((v, true), nested.2) ↔
        (nested.2.read s.ref).lookup "a" = some v) ∧
      (db.Get memoryStore.impl nested.1 "a" nested.2 = some ((0, false), nested.2) ↔
        (nested.2.read s.ref).lookup "a" = none)) ∧
    db.Get memoryStore.impl (NewDatabase Heap.empty).1 "a" (NewDatabase Heap.empty).2
      = some ((0, false), (NewDatabase Heap.empty).2) ∧
    ∃ d' h', db.Set memoryStore.impl (NewDatabase Heap.empty).1 "a" 0 (NewDatabase Heap.empty).2
        = some (d', h') ∧
      db.Get memoryStore.impl d' "a" h' = some ((0, true), h')) :=
  ⟨nested_wf, C10_get_faithful nested.1 nested.2 nested_wf "a" Heap.empty⟩

/-- C11: over the in-memory store, `Unset(k)` of a key the innermost store does not contain
returns the same chain and the same heap and `Delete` reports no error; and in every
well-formed state a second `Unset(k)` changes nothing after the first. -/
theorem C11_unset_idempotent (d : db memoryStore) (h : Heap) (hwf : WF d h) (k : String) :
    (∀ s, d.innermost = some s → (h.read s.ref).lookup k = none →
      db.Unset memoryStore.impl d k h = some (d, h) ∧ (memoryStore.Delete s k h).1 = none) ∧
    ∃ d1 h1, db.Unset memoryStore.impl d k h = some (d1, h1) ∧
      db.Unset memoryStore.impl d1 k h1 = some (d1, h1) := by
  obtain ⟨s, hs, -, -⟩ := hwf.innermost
  constructor
  · intro s' hs' hk
    refine ⟨?_, rfl⟩
    rw [Unset_memory, hs']
    simp [erase_of_lookup_none _ _ hk, Heap.write_read_self]
  · refine ⟨d, h.write s.ref ((h.read s.ref).erase k), by simp [Unset_memory, hs], ?_⟩
    simp [Unset_memory, hs, erase_idem, Heap.write_write]

theorem C11_unset_idempotent_witness :
    WF nested.1 nested.2 ∧
    ((∀ s, nested.1.innermost = some s → (nested.2.read s.ref).lookup "a" = none →
      db.Unset memoryStore.impl nested.1 "a" nested.2 = some (nested.1, nested.2) ∧
        (memoryStore.Delete s "a" nested.2).1 = none) ∧
    ∃ d1 h1, db.Unset memoryStore.impl nested.1 "a" nested.2 = some (d1, h1) ∧
      db.Unset memoryStore.impl d1 "a" h1 = some (d1, h1)) :=
  ⟨nested_wf, C11_unset_idempotent nested.1 nested.2 nested_wf "a"⟩

/-- C12: for any backend, with at least one open transaction whose deepest frame owns the
store `s`, `Commit()` returns exactly what `Flush()` on `s` returns, and the only backend call
it makes is that one `Flush`: none on the old root's store or on an intermediate frame's. -/
theorem C12_commit_returns_flush {σ ω : Type} (S : Store σ ω) (d : db σ) (s : σ) (w : ω)
    (log : List (Call σ)) (hn : 1 ≤ d.depth) (hs : d.innermost = some s) :
    db.Commit S d w = some ((S.Flush s w).1, db.leaf (some s), (S.Flush s w).2) ∧
    (∀ e, (∃ r, db.Commit S d w = some (some e, r)) ↔ (S.Flush s w).1 = some e) ∧
    db.Commit S.traced d (w, log)
      = some ((S.Flush s w).1, db.leaf (some s), ((S.Flush s w).2, log ++ [Call.Flush s])) ∧
    ∀ o, some o ∈ d.outer → o ≠ s → Call.Flush o ∉ [Call.Flush s] := by
  have h1 : db.Commit S d w = some ((S.Flush s w).1, db.leaf (some s), (S.Flush s w).2) := by
    rw [db.Commit_eq _ _ _ hn, hs]
    rfl
  refine ⟨h1, ?_, ?_, ?_⟩
  · intro e
    rw [h1]
    constructor
    · rintro ⟨r, hr⟩
      simp only [Option.some.injEq, Prod.mk.injEq] at hr
      exact hr.1
    · intro he
      exact ⟨_, by rw [he]⟩
  · rw [db.Commit_eq _ _ _ hn, hs]
    rfl
  · intro o _ hne hmem
    simp only [List.mem_singleton, Call.Flush.injEq] at hmem
    exact hne hmem

theorem C12_commit_returns_flush_witness :
    (1 ≤ nested.1.depth ∧ nested.1.innermost = some ⟨1⟩) ∧
    (db.Commit failingFlush nested.1 nested.2
      = some ((failingFlush.Flush ⟨1⟩ nested.2).1, db.leaf (some ⟨1⟩),
          (failingFlush.Flush ⟨1⟩ nested.2).2) ∧
    (∀ e, (∃ r, db.Commit failingFlush nested.1 nested.2 = some (some e, r)) ↔
      (failingFlush.Flush ⟨1⟩ nested.2).1 = some e) ∧
    db.Commit failingFlush.traced nested.1 (nested.2, [])
      = some ((failingFlush.Flush ⟨1⟩ nested.2).1, db.leaf (some ⟨1⟩),
          ((failingFlush.Flush ⟨1⟩ nested.2).2, [] ++ [Call.Flush ⟨1⟩])) ∧
    ∀ o, some o ∈ nested.1.outer → o ≠ ⟨1⟩ → Call.Flush o ∉ [Call.Flush (⟨1⟩ : memoryStore)]) :=
  ⟨⟨by decide, rfl⟩, C12_commit_returns_flush failingFlush nested.1 ⟨1⟩ nested.2 [] (by decide) rfl⟩

/-- C13: for every finite sequence of the six calls run from `NewDatabase()` the linked-frame
implementation over the in-memory store runs to the end and returns, call by call, what the
frame-stack model returns; the state reached represents the model's state. -/
theorem C13_refines_frame_stack (h0 : Heap) (ops : List Op) :
    ∃ d h, db.run memoryStore.impl (NewDatabase h0).1 (NewDatabase h0).2 ops
        = some ((FrameStack.run FrameStack.init ops).1, d, h) ∧
      db.abs h d = (FrameStack.run FrameStack.init ops).2 := by
  have := sim_run (WF.NewDatabase h0) ops
  rw [db.abs_NewDatabase] at this
  exact this

/-- C14: every finite sequence of calls on a database built by `NewDatabase()` runs to the end
without a panic and reaches a state in which the root and every frame own a non-nil store and
in which each of the six calls returns; the only errors returned are
`ErrNoActiveTransaction`. -/
theorem C14_no_abort (h0 : Heap) (ops : List Op) :
    ∃ rets d h, db.run memoryStore.impl (NewDatabase h0).1 (NewDatabase h0).2 ops
        = some (rets, d, h) ∧
      (∀ o ∈ d.stores, o ≠ none) ∧
      (∀ op, ∃ r, db.exec memoryStore.impl d h op = some r) ∧
      ∀ e, Ret.error (some e) ∈ rets → e = Error.ErrNoActiveTransaction := by
  obtain ⟨rets, d, h, hrun, hwf, herr⟩ := run_total (WF.NewDatabase h0) ops
  refine ⟨rets, d, h, hrun, hwf.ne_none, ?_, herr⟩
  intro op
  obtain ⟨r, hr, -⟩ := exec_total hwf op
  exact ⟨r, hr⟩

/-- C16: for a database built by `NewDatabaseWithStore(b)` over an allocated in-memory store,
`Begin()`, any sequence of `Set` and `Unset` calls and `Commit()` run without error and leave
a root that owns another store than `b`; the map of `b` is what it was before `Begin()`, so a
second database built over `b` returns for every key what it returned before. -/
theorem C16_commit_leaves_old_root (b : memoryStore) (h : Heap) (hb : b.ref < h.next)
    (ws : List Op) (hws : ∀ op ∈ ws, op.isWrite = true) :
    ∃ rets c h', db.run memoryStore.impl (NewDatabaseWithStore (some b)) h
        (Op.Begin :: (ws ++ [Op.Commit])) = some (rets, NewDatabaseWithStore (some c), h') ∧
      rets.getLast? = some (Ret.error none) ∧ c ≠ b ∧ h'.read b.ref = h.read b.ref ∧
      ∀ k, ∃ r, db.Get memoryStore.impl (NewDatabaseWithStore (some b)) k h = some (r, h) ∧
        db.Get memoryStore.impl (NewDatabaseWithStore (some b)) k h' = some (r, h') := by
  have hne : b.ref ≠ h.next := Nat.ne_of_lt hb
  obtain ⟨rets, g', hrun, -, hread⟩ :=
    run_writes ((db.leaf (some b)).push (some ⟨h.next⟩)) ⟨h.next⟩
      (db.innermost_push _ _) ws hws (memoryStore.Clone b h).2
  have hkeep : g'.read b.ref = h.read b.ref := by
    rw [hread b.ref hne, Clone_read_ne b h hne]
  refine ⟨Ret.unit :: (rets ++ [Ret.error none]), ⟨h.next⟩, g', ?_, ?_, ?_, hkeep, ?_⟩
  · simp [db.run, db.exec, Begin_memory, NewDatabaseWithStore, db.innermost, db.run_append, hrun,
      Commit_push]
  · rw [← List.cons_append, List.getLast?_append]
    rfl
  · intro hc
    apply hne
    rw [← hc]
  · intro k
    simp only [Get_memory, NewDatabaseWithStore, db.innermost, Option.map_some']
    rw [hkeep]
    exact ⟨_, rfl, rfl⟩

theorem C16_commit_leaves_old_root_witness :
    ((⟨0⟩ : memoryStore).ref < fresh.2.next ∧
      ∀ op ∈ [Op.Set "a" 3, Op.Unset "b", Op.Set "b" 4], op.isWrite = true) ∧
    ∃ rets c h', db.run memoryStore.impl (NewDatabaseWithStore (some ⟨0⟩)) fresh.2
        (Op.Begin :: ([Op.Set "a" 3, Op.Unset "b", Op.Set "b" 4] ++ [Op.Commit]))
          = some (rets, NewDatabaseWithStore (some c), h') ∧
      rets.getLast? = some (Ret.error none) ∧ c ≠ ⟨0⟩ ∧ h'.read 0 = fresh.2.read 0 ∧
      ∀ k, ∃ r, db.Get memoryStore.impl (NewDatabaseWithStore (some ⟨0⟩)) k fresh.2
          = some (r, fresh.2) ∧
        db.Get memoryStore.impl (NewDatabaseWithStore (some ⟨0⟩)) k h' = some (r, h') :=
  ⟨⟨by decide, by decide⟩, C16_commit_leaves_old_root ⟨0⟩ fresh.2 (by decide) _ (by decide)⟩

/-- C17: over the in-memory store `Set(k, v)` and `Unset(k)` keep the number of open
transactions and leave the result of `Get` on every other key unchanged. -/
theorem C17_writes_affect_only_key (d : db memoryStore) (h : Heap) (hwf : WF d h)
    (k k' : String) (hne : k' ≠ k) (v : Int) :
    (∃ d1 h1, db.Set memoryStore.impl d k v h = some (d1, h1) ∧ d1.depth = d.depth ∧
      ∃ r, db.Get memoryStore.impl d k' h = some (r, h) ∧
        db.Get memoryStore.impl d1 k' h1 = some (r, h1)) ∧
    (∃ d1 h1, db.Unset memoryStore.impl d k h = some (d1, h1) ∧ d1.depth = d.depth ∧
      ∃ r, db.Get memoryStore.impl d k' h = some (r, h) ∧
        db.Get memoryStore.impl d1 k' h1 = some (r, h1)) := by
  obtain ⟨s, hs, -, -⟩ := hwf.innermost
  constructor
  · refine ⟨d, h.write s.ref ((h.read s.ref).insert k v), by simp [Set_memory, hs], rfl, _,
      by simp only [Get_memory, hs, Option.map_some']; rfl, ?_⟩
    simp only [Get_memory, hs, Option.map_some', Heap.read_write_same,
      AList.lookup_insert_ne hne]
  · refine ⟨d, h.write s.ref ((h.read s.ref).erase k), by simp [Unset_memory, hs], rfl, _,
      by simp only [Get_memory, hs, Option.map_some']; rfl, ?_⟩
    simp only [Get_memory, hs, Option.map_some', Heap.read_write_same,
      AList.lookup_erase_ne hne]

theorem C17_writes_affect_only_key_witness :
    (WF nested.1 nested.2 ∧ "b" ≠ "a") ∧
    ((∃ d1 h1, db.Set memoryStore.impl nested.1 "a" 7 nested.2 = some (d1, h1) ∧
      d1.depth = nested.1.depth ∧
      ∃ r, db.Get memoryStore.impl nested.1 "b" nested.2 = some (r, nested.2) ∧
        db.Get memoryStore.impl d1 "b" h1 = some (r, h1)) ∧
    (∃ d1 h1, db.Unset memoryStore.impl nested.1 "a" nested.2 = some (d1, h1) ∧
      d1.depth = nested.1.depth ∧
      ∃ r, db.Get memoryStore.impl nested.1 "b" nested.2 = some (r, nested.2) ∧
        db.Get memoryStore.impl d1 "b" h1 = some (r, h1))) :=
  ⟨⟨nested_wf, by decide⟩,
    C17_writes_affect_only_key nested.1 nested.2 nested_wf "a" "b" (by decide) 7⟩

/-- C18: for any backend, with at least one open transaction, when `Flush()` on the deepest
frame's store returns an error, `Commit()` returns that error and has nevertheless replaced
the chain by a root that owns the deepest frame's store and has no transaction: a following
`Rollback()` returns `ErrNoActiveTransaction`. -/
theorem C18_commit_not_atomic {σ ω : Type} (S : Store σ ω) (d : db σ) (s : σ) (w : ω)
    (e : Error) (hn : 1 ≤ d.depth) (hs : d.innermost = some s)
    (hf : (S.Flush s w).1 = some e) :
    ∃ d' w', db.Commit S d w = some (some e, d', w') ∧ d' = db.leaf (some s) ∧
      d'.store = d.innermost ∧ d'.transaction = none ∧ d'.depth = 0 ∧ d' ≠ d ∧
      db.Rollback d' = (some Error.ErrNoActiveTransaction, d') ∧
      db.exec S d' w' Op.Rollback = some (Ret.error (some Error.ErrNoActiveTransaction), d', w') := by
  refine ⟨db.leaf (some s), (S.Flush s w).2, ?_, rfl, hs.symm, rfl, rfl, ?_, rfl, rfl⟩
  · rw [db.Commit_eq _ _ _ hn, hs, ← hf]
    rfl
  · intro hd
    rw [← hd] at hn
    simp [db.depth] at hn

theorem C18_commit_not_atomic_witness :
    (1 ≤ nested.1.depth ∧ nested.1.innermost = some ⟨1⟩ ∧
      (failingFlush.Flush ⟨1⟩ nested.2).1 = some (Error.backend "flush failed")) ∧
    ∃ d' w', db.Commit failingFlush nested.1 nested.2
        = some (some (Error.backend "flush failed"), d', w') ∧ d' = db.leaf (some ⟨1⟩) ∧
      d'.store = nested.1.innermost ∧ d'.transaction = none ∧ d'.depth = 0 ∧ d' ≠ nested.1 ∧
      db.Rollback d' = (some Error.ErrNoActiveTransaction, d') ∧
      db.exec failingFlush d' w' Op.Rollback
        = some (Ret.error (some Error.ErrNoActiveTransaction), d', w') :=
  ⟨⟨by decide, rfl, rfl⟩,
    C18_commit_not_atomic failingFlush nested.1 ⟨1⟩ nested.2 (Error.backend "flush failed")
      (by decide) rfl rfl⟩

/-- C19: for any backend, when `Clone()` on the innermost store returns `(c, err)` with a
non-nil error, `Begin()` still returns normally with a new innermost frame that owns `c` and
one more open transaction; when `c` is the nil store, `Set`, `Get` and `Unset` on the
resulting database panic. -/
theorem C19_begin_ignores_clone_error {σ ω : Type} (S : Store σ ω) (d : db σ) (s : σ) (w w' : ω)
    (c : Option σ) (e : Error) (hs : d.innermost = some s)
    (hc : S.Clone s w = ((c, some e), w')) :
    ∃ d', db.Begin S d w = some (d', w') ∧
      db.exec S d w Op.Begin = some (Ret.unit, d', w') ∧
      d'.depth = d.depth + 1 ∧ d'.stores = d.stores ++ [c] ∧ d'.innermost = c ∧
      (c = none → ∀ (key : String) (value : Int) (w2 : ω),
        db.Set S d' key value w2 = none ∧ db.Get S d' key w2 = none ∧
        db.Unset S d' key w2 = none) := by
  have hb : db.Begin S d w = some (d.push c, w') := by
    rw [db.Begin_eq, hs, Option.map_some', hc]
  refine ⟨d.push c, hb, ?_, db.depth_push _ _, db.stores_push _ _, db.innermost_push _ _, ?_⟩
  · simp only [db.exec, hb, Option.map_some']
  · intro hnil key value w2
    subst hnil
    refine ⟨?_, ?_, ?_⟩
    · rw [db.Set_eq, db.innermost_push]
      rfl
    · rw [db.Get_eq, db.innermost_push]
      rfl
    · rw [db.Unset_eq, db.innermost_push]
      rfl

theorem C19_begin_ignores_clone_error_witness :
    (nested.1.innermost = some ⟨1⟩ ∧
      failingClone.Clone ⟨1⟩ nested.2 = ((none, some (Error.backend "clone failed")), nested.2)) ∧
    ∃ d', db.Begin failingClone nested.1 nested.2 = some (d', nested.2) ∧
      db.exec failingClone nested.1 nested.2 Op.Begin = some (Ret.unit, d', nested.2) ∧
      d'.depth = nested.1.depth + 1 ∧ d'.stores = nested.1.stores ++ [none] ∧
      d'.innermost = none ∧
      ((none : Option memoryStore) = none → ∀ (key : String) (value : Int) (w2 : Heap),
        db.Set failingClone d' key value w2 = none ∧ db.Get failingClone d' key w2 = none ∧
        db.Unset failingClone d' key w2 = none) :=
  ⟨⟨rfl, rfl⟩,
    C19_begin_ignores_clone_error failingClone nested.1 ⟨1⟩ nested.2 nested.2 none
      (Error.backend "clone failed") rfl rfl⟩

end SimpleDatabase
